import Mathlib

/-!
Shallow embedding of the kernel-generation core of pyJac-v2
(`src/pyjac/kernel_utils/kernel_gen.py`): argument resolution
(`kernel_generator._process_args`), memory placement
(`kernel_generator._process_memory`), working-buffer packing
(`kernel_generator._get_working_buffer`), barrier insertion
(`opencl_kernel_generator.apply_barriers`) and vectorization
specialization (`kernel_generator.apply_specialization`), together with
proofs checked against the natural-language specification.
-/

namespace PyJacGen

/-- Base numeric type of a loopy argument / temporary (`dtype`). -/
inductive BaseType
  | f64
  | f32
  | i32
  | i64
deriving DecidableEq

/-- `dtype.is_integral()` in numpy terms. -/
def BaseType.isIntegral : BaseType → Bool
  | .i32 => true
  | .i64 => true
  | _ => false

/-- One dimension of an argument shape: either a fixed integer size or a
symbolic size (e.g. the `work_size` symbol), mirroring the
`isinstance(x, int)` test in `_get_working_buffer`. -/
inductive Dim
  | fixed (n : Nat)
  | sym (s : String)
deriving DecidableEq

/-- A `loopy.KernelArgument`: `ValueArg`s have `isValue = true`; array
arguments (`GlobalArg`/`ArrayArg`) have it `false`.  `atomic` records
whether the dtype is an `AtomicNumpyType`; `isLocal` records a LOCAL
address space (as set by `__migrate_locals`). -/
structure KernelArg where
  name : String
  isValue : Bool
  base : BaseType
  atomic : Bool
  isLocal : Bool
  shape : List Dim
deriving DecidableEq

/-- Address space (`loopy.kernel.data.AddressSpace`, imported as `scopes`). -/
inductive Scope
  | priv
  | loc
  | glob
  | auto
deriving DecidableEq

/-- A `loopy.TemporaryVariable`.  Constant data has concrete integer
shapes, hence `shape : List Nat`. -/
structure TempVar where
  name : String
  scope : Scope
  readOnly : Bool
  base : BaseType
  atomic : Bool
  shape : List Nat
deriving DecidableEq

/-- A `loopy.LoopKernel`, restricted to the state `_process_args` reads:
its arguments, its temporary variables, and the set of variable names
returned by `get_written_variables()`. -/
structure Kernel where
  name : String
  args : List KernelArg
  temps : List TempVar
  written : List String
deriving DecidableEq

/-- An entry of `kernel_generator.extra_kernel_data`, which may hold both
`KernelArgument`s and `TemporaryVariable`s (the code filters by
`isinstance`). -/
inductive ExtraDatum
  | arg (a : KernelArg)
  | temp (t : TempVar)
deriving DecidableEq

/-- `to_loopy_type(arg.dtype, for_atomic=True)` applied to an argument:
the dtype is replaced by its atomic variant, everything else kept
(`arg.copy(dtype=...)` in `_compare_args.__atomify`). -/
def atomify (a : KernelArg) : KernelArg :=
  { a with atomic := true }

/-- `kernel_generator._compare_args`: true iff the arguments are equal or
differ only in atomicity. -/
def compareArgs (a b : KernelArg) : Bool :=
  a = b || atomify a = atomify b

/-- Insert a string into a strictly-sorted duplicate-free list, keeping it
strictly sorted; used to model Python's `sorted(set(...))`. -/
def sinsert (s : String) : List String → List String
  | [] => [s]
  | t :: ts =>
    if s = t then t :: ts
    else if s < t then s :: t :: ts
    else t :: sinsert s ts

/-- Python's `sorted(set(l))` for a list of strings: the strictly-sorted
list of the distinct elements of `l`. -/
def sortedDedup (l : List String) : List String :=
  l.foldr sinsert []

/-- First-seen deduplication of equal argument objects, mirroring the
`same_name` accumulation loop in `_process_args` (an argument is appended
iff no equal object was appended before). -/
def firstSeenDedup : List KernelArg → List KernelArg
  | [] => []
  | x :: xs => x :: (firstSeenDedup xs).filter (fun y => !(y = x : Bool))

/-- The distinct argument objects of a given name, in first-seen order:
the `same_name` list built by `_process_args` for `name`. -/
def variantsOf (args : List KernelArg) (n : String) : List KernelArg :=
  firstSeenDedup (args.filter (fun a => a.name = n))

/-- Errors raised by `_process_args`.  `conflict` carries the list of
conflicting variants interpolated into the exception message
(`'Cannot resolve different arguements of same name: ...'`);
`tempConflict` likewise for temporaries; `stopIteration` models an
exhausted `next(...)` generator. -/
inductive PErr
  | conflict (variants : List KernelArg)
  | tempConflict (variants : List TempVar)
  | stopIteration
deriving DecidableEq

/-- `knl.copy(args=[x if x != other else atomic for x in knl.args])`. -/
def rewriteKernelArgs (other atomic : KernelArg) (k : Kernel) : Kernel :=
  { k with args := k.args.map (fun x => if x = other then atomic else x) }

/-- The rewrite loop of `_process_args` (lines 1225-1228): it iterates
`enumerate(self.kernels)` — the generator's own kernels, read in their
pristine state — and assigns `kernels[i]` in the processed collection
whenever `other in knl.args`: position `i` becomes the rewrite of
`own[i]` when that pristine kernel holds `other`, and positions beyond
`own.length` (dependency kernels) are never touched. -/
def rewriteStep (own : List Kernel) (other atomic : KernelArg)
    (ks : List Kernel) : List Kernel :=
  match own, ks with
  | _, [] => []
  | [], k :: kRest => k :: rewriteStep [] other atomic kRest
  | ko :: ownRest, k :: kRest =>
    (if other ∈ ko.args then rewriteKernelArgs other atomic ko else k) ::
      rewriteStep ownRest other atomic kRest

/-- Resolution of one name's variant list (`_process_args` lines
1199-1233): a unique variant is kept; exactly two variants differing only
in atomicity are resolved to the atomic one while rewriting the own
kernels; anything else raises. -/
def resolveName (own : List Kernel) (vs : List KernelArg) (ks : List Kernel) :
    Except PErr (KernelArg × List Kernel) :=
  if vs.length = 1 then
    match vs with
    | [v] => .ok (v, ks)
    | _ => .error .stopIteration
  else
    match vs.find? (fun x => x.atomic) with
    | none => .error (.conflict vs)
    | some atomic =>
      if 2 < vs.length then .error (.conflict vs)
      else
        match vs.find? (fun x => !(x = atomic : Bool)) with
        | none => .error .stopIteration
        | some other =>
          if compareArgs other atomic then
            .ok (atomic, rewriteStep own other atomic ks)
          else
            .error (.conflict vs)

/-- The complete list of kernel data gathered by `_process_args`: every
argument of every processed kernel, then the `KernelArgument` entries of
`extra_kernel_data`. -/
def gatherArgs (kernels : List Kernel) (extra : List ExtraDatum) :
    List KernelArg :=
  (kernels.map (·.args)).flatten ++
    extra.filterMap (fun d => match d with | .arg a => some a | .temp _ => none)

/-- Fold of `resolveName` over the sorted name set, accumulating the
canonical `kernel_data` list and the evolving kernel list. -/
def resolveFold (own : List Kernel) (args : List KernelArg) :
    List String → List KernelArg → List Kernel →
    Except PErr (List KernelArg × List Kernel)
  | [], kd, ks => .ok (kd, ks)
  | n :: ns, kd, ks =>
    match resolveName own (variantsOf args n) ks with
    | .error e => .error e
    | .ok (canon, ks') => resolveFold own args ns (kd ++ [canon]) ks'

/-- The non-private, non-auto temporaries of the processed kernels plus
those of `extra_kernel_data` (lines 1247-1256). -/
def gatherTemps (kernels : List Kernel) (extra : List ExtraDatum) :
    List TempVar :=
  (kernels.map (fun k =>
    k.temps.filter (fun t => !(t.scope = .priv : Bool) && !(t.scope = .auto : Bool)))).flatten
    ++ extra.filterMap (fun d => match d with
        | .temp t =>
          if !(t.scope = .priv : Bool) && !(t.scope = .auto : Bool) then some t else none
        | .arg _ => none)

/-- Duplicate check for temporaries (lines 1257-1266): for each name in
sorted order, all same-named temporaries must be equal, and the first one
is kept. -/
def dedupTemps (copy : List TempVar) : Except PErr (List TempVar) :=
  go (sortedDedup (copy.map (·.name))) []
where
  go : List String → List TempVar → Except PErr (List TempVar)
    | [], acc => .ok acc
    | n :: ns, acc =>
      let sameNames := copy.filter (fun t => t.name = n)
      match sameNames with
      | [] => go ns acc
      | t :: ts =>
        if ts.all (fun x => x = t) then go ns (acc ++ [t])
        else .error (.tempConflict (t :: ts))

/-- `__migrate_locals`: the given LOCAL temporaries become LOCAL-space
array arguments of the kernel and are removed from its temporaries. -/
def migrateLocals (k : Kernel) (ldecls : List TempVar) : Kernel :=
  { k with
    args := k.args ++ ldecls.map (fun t =>
      { name := t.name, isValue := false, base := t.base, atomic := t.atomic,
        isLocal := true, shape := t.shape.map Dim.fixed }),
    temps := k.temps.filter (fun t => !((ldecls.map (·.name)).contains t.name)) }

/-- The `hoist_locals` loop (lines 1270-1281): per kernel, LOCAL
temporaries are migrated to arguments, appended to the `local` list and
removed (by value) from the deduplicated temporary list. -/
def hoistStep : List Kernel → List TempVar →
    List TempVar × List Kernel × List TempVar
  | [], temps => ([], [], temps)
  | k :: ks, temps =>
    let lt := k.temps.filter (fun t => t.scope = .loc)
    if lt.isEmpty then
      let (locs, ks', temps') := hoistStep ks temps
      (locs, k :: ks', temps')
    else
      let (locs, ks', temps') := hoistStep ks (temps.filter (fun x => !(x ∈ lt : Bool)))
      (lt ++ locs, migrateLocals k lt :: ks', temps')

/-- `utils.partition(l, p)`: modelled from the spec ("partition canonical
arguments into scalar value-arguments vs. array arguments"), the
`pyjac.utils` module is not part of the analysed sources.  It returns the
order-preserving pair (satisfying, not satisfying). -/
def partitionP {α : Type} (p : α → Bool) (l : List α) : List α × List α :=
  (l.filter p, l.filter (fun x => !(p x)))

/-- The read-only name computation of `_process_args` (lines 1240-1244):
names of non-value arguments of the processed kernels that appear in no
kernel's written-variable set, as a canonical strictly-sorted list. -/
def readonlyOf (ks : List Kernel) : List String :=
  sortedDedup
    (((ks.map (·.args)).flatten).filterMap (fun a =>
      if !a.isValue && ks.all (fun d => !(d.written.contains a.name)) then
        some a.name
      else none))

/-- Result of `_process_args`.  `kernels` is the processed kernel list in
its final state (after conflict rewrites and local hoisting); the other
five fields are the function's return values. -/
structure PAResult where
  kernels : List Kernel
  args : List KernelArg
  locs : List TempVar
  readonly : List String
  constants : List TempVar
  valueargs : List KernelArg
deriving DecidableEq

/-- `kernel_generator._process_args` in its default invocation
(`kernels` not supplied): the processed collection is a copy of the
generator's own kernels followed by the dependency generators' kernels
(`use_subkernels`), plus `extra_kernel_data`.  The read-only name set is
represented canonically as a strictly-sorted list. -/
def processArgs (hoistLocals : Bool) (own deps : List Kernel)
    (extra : List ExtraDatum) : Except PErr PAResult :=
  let kernels0 := own ++ deps
  let args := gatherArgs kernels0 extra
  let nameset := sortedDedup (args.map (·.name))
  match resolveFold own args nameset [] kernels0 with
  | .error e => .error e
  | .ok (kernelData, ks) =>
    let (valueargs, args2) := partitionP (·.isValue) kernelData
    let readonly := readonlyOf ks
    match dedupTemps (gatherTemps ks extra) with
    | .error e => .error e
    | .ok temps1 =>
      let (locs, ks2, temps2) :=
        if hoistLocals then hoistStep ks temps1 else ([], ks, temps1)
      let (constants, _rest) := partitionP (·.readOnly) temps2
      .ok ⟨ks2, args2, locs, readonly, constants, valueargs⟩

/-! ### Memory placement (`_process_memory`) -/

/-- Does `needle` match at the head of `hay`? -/
def matchesAt : List Char → List Char → Bool
  | [], _ => true
  | _ :: _, [] => false
  | c :: cs, d :: ds => c = d && matchesAt cs ds

/-- Python's substring test `needle in hay`. -/
def containsSub (needle : List Char) : List Char → Bool
  | [] => matchesAt needle []
  | d :: ds => matchesAt needle (d :: ds) || containsSub needle ds

/-- `'sparse_jac' in x.name`: the name marks a sparse-Jacobian index
structure, which must not be promoted (it cannot be passed as a raw
pointer into loopy preambles). -/
def sparseName (s : String) : Bool :=
  containsSub "sparse_jac".toList s.toList

/-- `np.prod(x.shape)`: the element count of a constant temporary
(`np.prod` of the empty tuple is 1). -/
def elemCount (t : TempVar) : Nat :=
  t.shape.prod

/-- Insert into a descending-sorted list, before the first element of
smaller-or-equal element count (so that, of two arrays of equal count,
the one occurring earlier in the input stays first). -/
def insertDesc (x : TempVar) : List TempVar → List TempVar
  | [] => [x]
  | y :: ys =>
    if elemCount y ≤ elemCount x then x :: y :: ys else y :: insertDesc x ys

/-- `sorted(gtemps, key=lambda x: np.prod(x.shape), reverse=True)`:
stable sort by descending element count (Python's `sorted` is stable and
a stable sort is unique, so insertion sort computes the same list). -/
def sortDescSize : List TempVar → List TempVar
  | [] => []
  | x :: xs => insertDesc x (sortDescSize xs)

/-- Errors raised by `_process_memory`.  `typeErr` models the `TypeError`
raised by `readonly.add(readonly[-1].name)` — `readonly` is a `set` of
strings, which supports neither indexing nor `.name`; `indexErr` models
`gtemps[0]` on an empty candidate list; `cannotFit` models the logged
`'Cannot fit kernel {} in memory'` followed by `raise Exception()`. -/
inductive MErr
  | typeErr
  | indexErr
  | cannotFit (kernel : String)
deriving DecidableEq

/-- The promotion loop of `_process_memory` (lines 1355-1364): keep
moving the largest remaining candidate into the hypothetical
`type_changes` until the budget fits or the pool is exhausted.
`canFit tc` abstracts `mem_limits.can_fit(with_type_changes=...)`
(the `memory_limits` collaborator is outside the analysed sources). -/
def promoteLoop (canFit : List TempVar → Bool) (kernel : String)
    (tc : List TempVar) : List TempVar → Except MErr (List TempVar)
  | [] => if canFit tc then .ok tc else .error (.cannotFit kernel)
  | g :: gs =>
    if canFit tc then .ok tc else promoteLoop canFit kernel (tc ++ [g]) gs

/-- Candidate selection of `_process_memory` (lines 1347-1364): filter
out sparse-Jacobian names, sort descending by element count,
unconditionally promote the first candidate (`gtemps[0]`, an IndexError
on an empty pool), then run the promotion loop. -/
def promoteSelect (canFit : List TempVar → Bool) (kernel : String)
    (constants : List TempVar) : Except MErr (List TempVar) :=
  let gtemps := sortDescSize (constants.filter (fun x => !(sparseName x.name)))
  match gtemps with
  | [] => .error .indexErr
  | g :: gs => promoteLoop canFit kernel [g] gs

/-- `kernel_generator._process_memory`.  `canFit tc` abstracts the
per-class fit check `all(mem_limits.can_fit(with_type_changes=tc))`
(with `canFit []` the initial `all(mem_limits.can_fit())`).  When the
initial check fails and promotion succeeds, the finalisation loop
(lines 1367-1375) executes `readonly.add(readonly[-1].name)` on the
read-only *set* on its very first iteration, raising `TypeError`. -/
def processMemory (canFit : List TempVar → Bool) (kernel : String)
    (args : List KernelArg) (readonly : List String) (locs : List TempVar)
    (constants : List TempVar) :
    Except MErr (List KernelArg × List TempVar × List String × List TempVar) :=
  let _ := locs
  if canFit [] then .ok (args, constants, readonly, [])
  else
    match promoteSelect canFit kernel constants with
    | .error e => .error e
    | .ok _tc => .error .typeErr

/-! ### Working-buffer packing (`_get_working_buffer`) -/

/-- Name of the dynamic work-size symbol
(`pyjac.core.array_creator.work_size`, outside the analysed sources).
Modelled from the spec: "the work dimension must equal the work-size
symbol". -/
def wSizeName : String := "work_size"

/-- Errors of `_get_working_buffer`: a packed integral array
(`assert not arg.dtype.is_integral()`), `ssizes[0]` on an array without a
symbolic dimension (IndexError), or a failed work-size shape assertion. -/
inductive WErr
  | integralArray
  | indexErr
  | workSizeAssertion
deriving DecidableEq

/-- The fixed (integer) dimensions of a shape, in order
(`utils.partition(arg.shape, lambda x: isinstance(x, int))`, first
component). -/
def intDims (shape : List Dim) : List Nat :=
  shape.filterMap (fun d => match d with | .fixed n => some n | .sym _ => none)

/-- The symbolic dimensions of a shape, in order (second component of the
partition). -/
def symDims (shape : List Dim) : List String :=
  shape.filterMap (fun d => match d with | .fixed _ => none | .sym s => some s)

/-- Per-work-item element count of one packed array: the product of its
fixed integer dimensions. -/
def fixedSize (a : KernelArg) : Nat :=
  (intDims a.shape).prod

/-- The shape check at the end of each `_get_working_buffer` iteration:
`assert len(ssizes) <= 1 and str(ssizes[0]) == w_size.name` (only when
the user did not pin a literal work size).  An empty `ssizes` passes the
length conjunct and then raises IndexError. -/
def checkWorkDim (userWS : Bool) (a : KernelArg) : Except WErr Unit :=
  if userWS then .ok ()
  else
    match symDims a.shape with
    | [] => .error .indexErr
    | [s] => if s = wSizeName then .ok () else .error .workSizeAssertion
    | _ :: _ :: _ => .error .workSizeAssertion

/-- `kernel_generator._get_working_buffer`: accumulate per-array offsets
(the emitted offset string is `'{total} * {work_size}'`; we record the
running total, the string's coefficient) and the total per-work-item
element count. -/
def getWorkingBuffer (userWS : Bool) (args : List KernelArg) :
    Except WErr (Nat × List (String × Nat)) :=
  go 0 [] args
where
  go (size : Nat) (offsets : List (String × Nat)) :
      List KernelArg → Except WErr (Nat × List (String × Nat))
    | [] => .ok (size, offsets)
    | a :: rest =>
      if a.base.isIntegral then .error .integralArray
      else
        match checkWorkDim userWS a with
        | .error e => .error e
        | .ok _ => go (size + fixedSize a) (offsets ++ [(a.name, size)]) rest

/-! ### Barrier insertion (`opencl_kernel_generator.apply_barriers`) -/

/-- A synchronisation barrier request `(knl1, knl2, barrier_type)`:
insert a barrier of kind `kind` between the calls of kernel `before` and
kernel `after` (instruction indices). -/
structure Barrier where
  before : Nat
  after : Nat
  kind : String
deriving DecidableEq

/-- Errors of `apply_barriers`: an exhausted `next(...)` search, or the
ordering assertion `assert barrier[0] == instructions[index - 1][0]`. -/
inductive BErr
  | stopIteration
  | orderAssertion
deriving DecidableEq

/-- First index whose element satisfies `p` (Python's
`next(ind for ind, inst in enumerate(instructions) if ...)`). -/
def findFirst {α : Type} (p : α → Bool) : List α → Option Nat
  | [] => none
  | x :: xs => if p x then some 0 else (findFirst p xs).map (· + 1)

/-- One iteration of the `apply_barriers` loop over a tagged instruction
list (original instructions carry their enumeration index; inserted
barriers carry `none`, Python's `-1`).  Note Python's `index - 1` wraps
to the *last* element when `index == 0`. -/
def barrierStep (templates : String → String) (lineEnd : String)
    (work : List (Option Nat × String)) (b : Barrier) :
    Except BErr (List (Option Nat × String)) :=
  match findFirst (fun p => p.1 = some b.after) work with
  | none => .error .stopIteration
  | some idx =>
    match (if idx = 0 then work.getLast? else work[idx - 1]?) with
    | none => .error .stopIteration
    | some p =>
      if p.1 = some b.before then
        .ok (work.insertIdx idx (none, templates b.kind ++ lineEnd))
      else .error .orderAssertion

/-- `opencl_kernel_generator.apply_barriers` on the tagged list. -/
def applyBarriersT (templates : String → String) (lineEnd : String)
    (barriers : List Barrier) (instructions : List String) :
    Except BErr (List (Option Nat × String)) :=
  barriers.foldlM (barrierStep templates lineEnd)
    (instructions.enum.map (fun p => (some p.1, p.2)))

/-- `opencl_kernel_generator.apply_barriers`: tag the instructions with
their enumeration indices, insert one barrier statement per requested
triple, then strip the indices. -/
def applyBarriers (templates : String → String) (lineEnd : String)
    (barriers : List Barrier) (instructions : List String) :
    Except BErr (List String) :=
  match applyBarriersT templates lineEnd barriers instructions with
  | .error e => .error e
  | .ok w => .ok (w.map Prod.snd)

/-! ### Vectorization specialization (`apply_specialization`) -/

/-- The transforms `apply_specialization` can apply to a loopy kernel. -/
inductive Transform
  | splitIname (iname : String) (width : Nat) (innerTag : String)
  | tagIname (iname : String) (tag : String)
  | ggsFix (vecWidth : Nat)
deriving DecidableEq

/-- A loopy kernel as seen by `apply_specialization`: its name plus the
trace of transforms applied to it. -/
structure Knl where
  name : String
  transforms : List Transform
deriving DecidableEq

/-- The relevant `loopy_options` fields.  `langCanVectorize` abstracts
`utils.can_vectorize_lang[loopy_opts.lang]` (the `pyjac.utils` table is
outside the analysed sources). -/
structure LoopyOpts where
  depth : Option Nat
  width : Option Nat
  isSimd : Bool
  unr : Option Nat
  ilp : Bool
  langCanVectorize : Bool
deriving DecidableEq

/-- The outer (batch/global) loop index name
(`pyjac.core.array_creator.global_ind`, outside the analysed sources;
its value does not matter for the claims). -/
def globalInd : String := "j"

/-- Error of `apply_specialization`: the assertion
`assert vecspec is not None` for a non-vectorizable kernel. -/
inductive SErr
  | needsVecspec
deriving DecidableEq

/-- Outcome of `apply_specialization`: the transformed kernel, or — in
`get_specialization` mode — the iname→tag mapping. -/
inductive SpecOut
  | kernel (k : Knl)
  | mapping (m : List (String × String))
deriving DecidableEq

/-- Python truthiness of an optional integer option (`if depth:` treats
both `None` and `0` as false). -/
def truthy : Option Nat → Option Nat
  | some 0 => none
  | x => x

/-- `kernel_generator.apply_specialization`, lines 2163-2227 of
`kernel_gen.py`, with `vecspec` an opaque caller-supplied fix-up
function. -/
def applySpecialization (opts : LoopyOpts) (innerInd : String) (knl : Knl)
    (forTesting : Bool) (vecspec : Option (Knl → Knl)) (canVectorize : Bool)
    (getSpecialization : Bool) : Except SErr SpecOut :=
  let dwt : Option Nat × Option String × String × String :=
    match truthy opts.depth, truthy opts.width with
    | some d, _ => (some d, some innerInd, innerInd ++ "_outer", globalInd)
    | none, some w => (some w, some globalInd, innerInd, globalInd ++ "_outer")
    | none, none => (none, none, innerInd, globalInd)
  let vecWidth := dwt.1
  let toSplit := dwt.2.1
  let iTag := dwt.2.2.1
  let jTag := dwt.2.2.2
  if !canVectorize && vecspec.isNone then .error .needsVecspec
  else
    let st : Knl × List (String × String) :=
      match toSplit with
      | some ts =>
        if canVectorize then
          let tag := if opts.isSimd then "vec" else "l.0"
          if getSpecialization then (knl, [(ts ++ "_inner", tag)])
          else if (truthy opts.width).isSome && !forTesting then
            ({ knl with transforms := knl.transforms ++ [Transform.tagIname (ts ++ "_inner") tag] }, [])
          else
            ({ knl with transforms :=
                knl.transforms ++ [Transform.splitIname ts (vecWidth.getD 0) tag] }, [])
        else (knl, [])
      | none => (knl, [])
    let st :=
      if opts.langCanVectorize then
        if getSpecialization then (st.1, st.2 ++ [(jTag, "g.0")])
        else ({ st.1 with transforms := st.1.transforms ++ [Transform.tagIname jTag "g.0"] }, st.2)
      else st
    let st :=
      match vecspec with
      | some f => if !getSpecialization then (f st.1, st.2) else st
      | none => st
    let st :=
      match vecWidth with
      | some vw =>
        if !opts.isSimd && !getSpecialization then
          ({ st.1 with transforms := st.1.transforms ++ [Transform.ggsFix vw] }, st.2)
        else st
      | none => st
    let st :=
      match opts.unr with
      | some u =>
        if getSpecialization then (st.1, st.2 ++ [(iTag ++ "_inner", "unr")])
        else ({ st.1 with transforms := st.1.transforms ++ [Transform.splitIname iTag u "unr"] }, st.2)
      | none =>
        if opts.ilp then
          if getSpecialization then (st.1, st.2 ++ [(iTag, "ilp")])
          else ({ st.1 with transforms := st.1.transforms ++ [Transform.tagIname iTag "ilp"] }, st.2)
        else st
    if getSpecialization then .ok (.mapping st.2) else .ok (.kernel st.1)

/-! ### Specification-side auxiliary definitions -/

/-- Element count remaining in the constant memory class once the arrays
in `tc` have been promoted. -/
def constFootprint (constants tc : List TempVar) : Nat :=
  ((constants.filter (fun c => !(c ∈ tc : Bool))).map elemCount).sum

/-- Element count of the global memory class, `g0` being its footprint
before any promotion. -/
def globalFootprint (g0 : Nat) (tc : List TempVar) : Nat :=
  g0 + (tc.map elemCount).sum

/-- The offset coefficients `_get_working_buffer` assigns, as a recursive
specification: array `i` is placed at running total `s`, the next one at
`s + fixedSize`. -/
def offsetsOf (s : Nat) : List KernelArg → List (String × Nat)
  | [] => []
  | a :: rest => (a.name, s) :: offsetsOf (s + fixedSize a) rest

/-- The batch-loop tag `j_tag` computed at the head of
`apply_specialization` (`global_ind`, suffixed with `_outer` exactly for
wide vectorization). -/
def jTagOf (opts : LoopyOpts) : String :=
  match truthy opts.depth, truthy opts.width with
  | none, some _ => globalInd ++ "_outer"
  | _, _ => globalInd

/-- The inner-loop tag `i_tag` computed at the head of
`apply_specialization`. -/
def iTagOf (opts : LoopyOpts) (innerInd : String) : String :=
  match truthy opts.depth with
  | some _ => innerInd ++ "_outer"
  | none => innerInd

/-- The vector width selected by `apply_specialization` (depth wins over
width). -/
def vecWidthOf (opts : LoopyOpts) : Option Nat :=
  match truthy opts.depth, truthy opts.width with
  | some d, _ => some d
  | none, w => w

/-- The transforms applied by `apply_specialization` *before* the
`vecspec` fix-up runs, when the standard vectorization split is skipped
(`can_vectorize=False`): only the `g.0` batch-parallelism tag. -/
def preVecspec (opts : LoopyOpts) (k : Knl) : Knl :=
  if opts.langCanVectorize then
    { k with transforms := k.transforms ++ [Transform.tagIname (jTagOf opts) "g.0"] }
  else k

/-- The transforms applied by `apply_specialization` *after* the
`vecspec` fix-up runs: the grid-size fix and unrolling / ILP tags. -/
def postVecspec (opts : LoopyOpts) (innerInd : String) (k : Knl) : Knl :=
  let k :=
    match vecWidthOf opts with
    | some vw =>
      if !opts.isSimd then
        { k with transforms := k.transforms ++ [Transform.ggsFix vw] }
      else k
    | none => k
  match opts.unr with
  | some u =>
    { k with transforms := k.transforms ++ [Transform.splitIname (iTagOf opts innerInd) u "unr"] }
  | none =>
    if opts.ilp then
      { k with transforms := k.transforms ++ [Transform.tagIname (iTagOf opts innerInd) "ilp"] }
    else k

/-- A transform carries a vectorization tag (`vec` for SIMD, `l.0` for
an OpenCL local axis) — the tags the standard vectorization split
assigns. -/
def isVecTagged : Transform → Bool
  | .splitIname _ _ tg => tg = "vec" || tg = "l.0"
  | .tagIname _ tg => tg = "vec" || tg = "l.0"
  | .ggsFix _ => false

/-- Rebuild a single kernel carrying exactly the canonical output of a
`_process_args` run: its arguments are the canonical global and value
arguments, its temporaries the hoisted locals and constants, and its
written set everything except the read-only names. -/
def resolvedKernelOf (r : PAResult) : Kernel :=
  { name := "resolved",
    args := r.args ++ r.valueargs,
    temps := r.locs ++ r.constants,
    written := (r.args.map (·.name)).filter (fun s => !(r.readonly.contains s)) }

/-- Witness fixtures: two non-sparse constant temporaries of 4 and 6
elements, and a sparse-Jacobian one. -/
def tvA : TempVar := ⟨"A_const", .glob, true, .f64, false, [4]⟩

/-- Witness fixture: the 6-element constant. -/
def tvB : TempVar := ⟨"B_const", .glob, true, .f64, false, [6]⟩

/-- Witness fixture: a sparse-Jacobian index structure of 100 elements. -/
def tvSparse : TempVar := ⟨"jac_row_inds_sparse_jac", .glob, true, .i32, false, [100]⟩

/-- Witness fixture: a constant-class budget that fits as soon as at
least 6 elements have been promoted away. -/
def fit6 : List TempVar → Bool := fun tc => decide (6 ≤ (tc.map elemCount).sum)

/-- Witness fixture: a packed float array of fixed size 15 per work
item. -/
def argW1 : KernelArg :=
  ⟨"conc", false, .f64, false, false, [.fixed 3, .sym "work_size", .fixed 5]⟩

/-- Witness fixture: a packed float array of fixed size 1 per work
item. -/
def argW2 : KernelArg := ⟨"rop", false, .f64, false, false, [.sym "work_size"]⟩

/-- Witness fixture: barrier statement templates. -/
def tmplW : String → String := fun k => "BAR_" ++ k

/-- Witness fixture: three instruction strings. -/
def instrsW : List String := ["a();", "b();", "c();"]

/-- Witness fixture: one barrier between kernels 0 and 1. -/
def barsW : List Barrier := [⟨0, 1, "g"⟩]

/-- Witness fixture: the tagged result of inserting `barsW` into
`instrsW`. -/
def wtagW : List (Option Nat × String) :=
  [(some 0, "a();"), (none, "BAR_g;"), (some 1, "b();"), (some 2, "c();")]

/-- Two same-named variants are identical except that one carries the
atomic variant of the other's numeric type. -/
def differOnlyInAtomicity (vs : List KernelArg) : Prop :=
  ∃ x y, vs = [x, y] ∧ x ≠ y ∧ atomify x = atomify y

instance instDecidableDifferOnly (vs : List KernelArg) :
    Decidable (differOnlyInAtomicity vs) :=
  match vs with
  | [x, y] =>
    if h : x ≠ y ∧ atomify x = atomify y then
      .isTrue ⟨x, y, rfl, h.1, h.2⟩
    else
      .isFalse (by
        rintro ⟨x', y', heq, hne, hat⟩
        simp only [List.cons.injEq, and_true] at heq
        obtain ⟨h1, h2⟩ := heq
        subst h1
        subst h2
        exact h ⟨hne, hat⟩)
  | [] => .isFalse (by rintro ⟨x', y', heq, _, _⟩; cases heq)
  | [_] => .isFalse (by
      rintro ⟨x', y', heq, _, _⟩
      simp at heq)
  | _ :: _ :: _ :: _ => .isFalse (by
      rintro ⟨x', y', heq, _, _⟩
      simp at heq)

/-- The per-name canonical pick of the temporary-variable duplicate
check: for each distinct name in sorted order, the first gathered
temporary of that name. -/
def tempsCanon (l : List TempVar) : List TempVar :=
  (sortedDedup (l.map (·.name))).filterMap
    (fun m => (l.filter (fun t => t.name = m)).head?)

/-- Witness fixture: a non-atomic float argument named `rates`. -/
def kaNon : KernelArg := ⟨"rates", false, .f64, false, false, [.fixed 2]⟩

/-- Witness fixture: the atomic variant of `kaNon`. -/
def kaAt : KernelArg := ⟨"rates", false, .f64, true, false, [.fixed 2]⟩

/-- Witness fixture: a same-named argument of a different base type. -/
def kaF32 : KernelArg := ⟨"rates", false, .f32, false, false, [.fixed 2]⟩

/-- Witness fixture: a generator-owned kernel using the atomic variant. -/
def kOwn : Kernel := ⟨"k_own", [kaAt], [], ["rates"]⟩

/-- Witness fixture: a dependency kernel using the non-atomic variant. -/
def kDep : Kernel := ⟨"k_dep", [kaNon], [], []⟩

/-- Witness fixture: an own kernel holding the non-atomic variant. -/
def kOwn2 : Kernel := ⟨"ka", [kaNon], [], ["rates"]⟩

/-- Witness fixture: a dependency kernel holding the atomic variant. -/
def kDep2 : Kernel := ⟨"kb", [kaAt], [], []⟩

/-- Witness fixture: a kernel whose `rates` argument conflicts in base
type. -/
def kConf : Kernel := ⟨"k_conf", [kaF32], [], []⟩

/-- Witness fixture: the result of `_process_args` on `kOwn` alone. -/
def rFix : PAResult := ⟨[kOwn], [kaAt], [], [], [], []⟩

/-! ## Theorems -/

/-- C1: the spec says a successful greedy promotion turns every promoted
constant into a read-only global argument and records it in the
host-constants list.  The code cannot do this: on the promotion success
path the finalisation loop executes `readonly.add(readonly[-1].name)`
where `readonly` is a `set` of strings — unindexable, and its elements
have no `.name` — so `_process_memory` raises `TypeError` instead of
returning the promoted data (here: a one-constant kernel whose budget
fails initially and fits after one promotion). -/
theorem c1_promotion_finalisation_raises :
    processMemory (fun tc => !tc.isEmpty) "species_rates" [] [] []
      [⟨"Ropl", .glob, true, .f64, false, [2]⟩] = .error .typeErr := by
  rfl

/-- `promoteLoop` succeeds only with the already-accumulated changes plus
a prefix of the remaining candidate pool. -/
theorem promoteLoop_ok_prefix (canFit : List TempVar → Bool) (kn : String) :
    ∀ (rest tc tc' : List TempVar), promoteLoop canFit kn tc rest = .ok tc' →
      ∃ k, k ≤ rest.length ∧ tc' = tc ++ rest.take k := by
  intro rest
  induction rest with
  | nil =>
    intro tc tc' h
    simp only [promoteLoop] at h
    split at h
    · cases h
      exact ⟨0, by simp⟩
    · simp at h
  | cons g gs ih =>
    intro tc tc' h
    simp only [promoteLoop] at h
    split at h
    · cases h
      exact ⟨0, by simp⟩
    · obtain ⟨k, hk, he⟩ := ih (tc ++ [g]) tc' h
      refine ⟨k + 1, by simp only [List.length_cons]; omega, ?_⟩
      simpa [List.take_succ_cons, List.append_assoc] using he

/-- `promoteLoop` fails only with the cannot-fit error naming the
kernel. -/
theorem promoteLoop_err (canFit : List TempVar → Bool) (kn : String) :
    ∀ (rest tc : List TempVar) (e : MErr),
      promoteLoop canFit kn tc rest = .error e → e = .cannotFit kn := by
  intro rest
  induction rest with
  | nil =>
    intro tc e h
    simp only [promoteLoop] at h
    split at h
    · simp at h
    · cases h
      rfl
  | cons g gs ih =>
    intro tc e h
    simp only [promoteLoop] at h
    split at h
    · simp at h
    · exact ih (tc ++ [g]) e h

/-- Inserting is a permutation of consing. -/
theorem insertDesc_perm (x : TempVar) (l : List TempVar) :
    (insertDesc x l).Perm (x :: l) := by
  induction l with
  | nil => simp [insertDesc]
  | cons y ys ih =>
    simp only [insertDesc]
    split
    · exact List.Perm.refl _
    · exact (ih.cons y).trans (List.Perm.swap x y ys)

/-- The descending sort is a permutation of its input. -/
theorem sortDescSize_perm (l : List TempVar) : (sortDescSize l).Perm l := by
  induction l with
  | nil => exact List.Perm.refl _
  | cons x xs ih => exact (insertDesc_perm x (sortDescSize xs)).trans (ih.cons x)

/-- Insertion preserves descending sortedness. -/
theorem insertDesc_sorted (x : TempVar) (l : List TempVar)
    (h : List.Pairwise (fun a b => elemCount b ≤ elemCount a) l) :
    List.Pairwise (fun a b => elemCount b ≤ elemCount a) (insertDesc x l) := by
  induction l with
  | nil => simp [insertDesc]
  | cons y ys ih =>
    obtain ⟨hy, hys⟩ := List.pairwise_cons.mp h
    simp only [insertDesc]
    split
    · next hle =>
      refine List.pairwise_cons.mpr ⟨?_, h⟩
      intro b hb
      rcases List.mem_cons.mp hb with rfl | hb
      · exact hle
      · exact le_trans (hy b hb) hle
    · next hgt =>
      refine List.pairwise_cons.mpr ⟨?_, ih hys⟩
      intro b hb
      rcases List.mem_cons.mp ((insertDesc_perm x ys).mem_iff.mp hb) with rfl | hb2
      · omega
      · exact hy b hb2

/-- The descending sort is sorted by weakly decreasing element count. -/
theorem sortDescSize_sorted (l : List TempVar) :
    List.Pairwise (fun a b => elemCount b ≤ elemCount a) (sortDescSize l) := by
  induction l with
  | nil => simp [sortDescSize]
  | cons x xs ih => exact insertDesc_sorted x (sortDescSize xs) ih

/-- A successful `promoteSelect` returns a nonempty prefix of the
descending-sorted eligible pool. -/
theorem promoteSelect_ok_prefix (canFit : List TempVar → Bool) (kn : String)
    (constants tc : List TempVar)
    (h : promoteSelect canFit kn constants = .ok tc) :
    ∃ k, 1 ≤ k ∧
      tc = (sortDescSize (constants.filter (fun x => !(sparseName x.name)))).take k := by
  unfold promoteSelect at h
  rcases hgt : sortDescSize (constants.filter (fun x => !(sparseName x.name)))
    with _ | ⟨g, gs⟩
  · rw [hgt] at h
    simp at h
  · rw [hgt] at h
    simp only at h
    obtain ⟨k, hk, he⟩ := promoteLoop_ok_prefix canFit kn gs [g] tc h
    exact ⟨k + 1, by omega, by simpa [List.take_succ_cons] using he⟩

/-- C4: whenever greedy promotion runs, the candidates are the non-sparse
constants sorted by descending element count and the changes are a prefix
of that order: the promoted list is descending, contains no
sparse-Jacobian array, and starts with a largest eligible candidate. -/
theorem c4_promotion_order_and_sparse_exclusion
    (canFit : List TempVar → Bool) (kn : String) (constants tc : List TempVar)
    (h : promoteSelect canFit kn constants = .ok tc) :
    (∃ k, tc = (sortDescSize (constants.filter (fun x => !(sparseName x.name)))).take k)
    ∧ List.Pairwise (fun a b => elemCount b ≤ elemCount a) tc
    ∧ (∀ x ∈ tc, sparseName x.name = false)
    ∧ ∀ h0 : tc ≠ [], ∀ y ∈ constants, sparseName y.name = false →
        elemCount y ≤ elemCount (tc.head h0) := by
  obtain ⟨k, hk1, he⟩ := promoteSelect_ok_prefix canFit kn constants tc h
  have hsub : tc.Sublist (sortDescSize (constants.filter (fun x => !(sparseName x.name)))) :=
    he ▸ List.take_sublist k _
  refine ⟨⟨k, he⟩, (sortDescSize_sorted _).sublist hsub, ?_, ?_⟩
  · intro x hx
    have hx2 : x ∈ constants.filter (fun x => !(sparseName x.name)) :=
      (sortDescSize_perm _).mem_iff.mp (hsub.mem hx)
    simpa using (List.mem_filter.mp hx2).2
  · intro h0 y hy hys
    have hygt : y ∈ sortDescSize (constants.filter (fun x => !(sparseName x.name))) :=
      (sortDescSize_perm _).mem_iff.mpr (List.mem_filter.mpr ⟨hy, by simp [hys]⟩)
    have hne : sortDescSize (constants.filter (fun x => !(sparseName x.name))) ≠ [] := by
      intro hnil
      rw [hnil, List.take_nil] at he
      exact h0 he
    obtain ⟨g, gs, hgs⟩ := List.exists_cons_of_ne_nil hne
    obtain ⟨k', rfl⟩ : ∃ k', k = k' + 1 := ⟨k - 1, by omega⟩
    have htc : tc = g :: gs.take k' := by rw [he, hgs, List.take_succ_cons]
    have hhead : tc.head h0 = g := by
      subst htc
      rfl
    rw [hhead]
    have hsor := sortDescSize_sorted (constants.filter (fun x => !(sparseName x.name)))
    rw [hgs] at hsor hygt
    rcases List.mem_cons.mp hygt with rfl | h'
    · exact le_rfl
    · exact (List.pairwise_cons.mp hsor).1 y h'

/-- C4 witness: scenario B — candidates of 4 and 6 elements plus a huge
sparse-Jacobian array; promotion selects exactly the 6-element candidate
first, which alone satisfies the budget. -/
theorem c4_witness :
    promoteSelect fit6 "jacobian" [tvA, tvSparse, tvB] = .ok [tvB]
    ∧ ((∃ k, [tvB] =
          (sortDescSize (([tvA, tvSparse, tvB].filter (fun x => !(sparseName x.name))))).take k)
        ∧ List.Pairwise (fun a b => elemCount b ≤ elemCount a) [tvB]
        ∧ (∀ x ∈ [tvB], sparseName x.name = false)
        ∧ ∀ h0 : [tvB] ≠ [], ∀ y ∈ [tvA, tvSparse, tvB], sparseName y.name = false →
            elemCount y ≤ elemCount (List.head [tvB] h0)) :=
  ⟨by rfl, c4_promotion_order_and_sparse_exclusion fit6 "jacobian" [tvA, tvSparse, tvB] [tvB]
    (by rfl)⟩

/-- The element-count sum over a filtered list never exceeds the sum over
the list. -/
theorem sum_map_filter_le (p : TempVar → Bool) (m : List TempVar) :
    ((m.filter p).map elemCount).sum ≤ (m.map elemCount).sum := by
  induction m with
  | nil => simp
  | cons c cs ih =>
    cases hc : p c <;> simp [List.filter_cons, hc] <;> omega

/-- Removing an element of positive count strictly decreases the sum. -/
theorem sum_map_filter_ne_lt (x : TempVar) (m : List TempVar)
    (hx : x ∈ m) (hf : 0 < elemCount x) :
    ((m.filter (fun c => !(c = x : Bool))).map elemCount).sum <
      (m.map elemCount).sum := by
  induction m with
  | nil => cases hx
  | cons c cs ih =>
    by_cases hcx : c = x
    · subst hcx
      have h1 := sum_map_filter_le (fun d => !(d = c : Bool)) cs
      simp only [List.filter_cons, decide_True, Bool.not_true, Bool.false_eq_true,
        if_false, List.map_cons, List.sum_cons]
      omega
    · have hx2 : x ∈ cs := by
        rcases List.mem_cons.mp hx with h' | h'
        · exact absurd h'.symm hcx
        · exact h'
      have h2 := ih hx2
      simp only [List.filter_cons, hcx, decide_False, Bool.not_false, if_true,
        List.map_cons, List.sum_cons]
      omega

/-- Extending the promoted set by one array refines the remaining
constant pool by one more removal. -/
theorem filter_not_mem_append_singleton (l s : List TempVar) (x : TempVar) :
    l.filter (fun c => !(c ∈ s ++ [x] : Bool)) =
      (l.filter (fun c => !(c ∈ s : Bool))).filter (fun c => !(c = x : Bool)) := by
  rw [List.filter_filter]
  apply List.filter_congr
  intro c _
  by_cases h1 : c ∈ s <;> by_cases h2 : c = x <;> simp [h1, h2]

/-- C5 (amended: at least one eligible candidate must exist — with an
empty pool the code fails on `gtemps[0]` with an IndexError rather than
the cannot-fit error): greedy promotion performs at most N promotions for
N eligible candidates, each promotion strictly shrinking the
constant-class footprint and strictly growing the global-class footprint,
and failure is exactly the fatal cannot-fit error naming the kernel. -/
theorem c5_promotion_terminating_monotonic
    (canFit : List TempVar → Bool) (kn : String) (constants : List TempVar)
    (g0 : Nat) (hnd : constants.Nodup) (hpos : ∀ c ∈ constants, 0 < elemCount c)
    (hne : constants.filter (fun x => !(sparseName x.name)) ≠ []) :
    (∀ tc, promoteSelect canFit kn constants = .ok tc →
        tc.length ≤ (constants.filter (fun x => !(sparseName x.name))).length ∧
        ∀ i < tc.length,
          constFootprint constants (tc.take (i+1)) < constFootprint constants (tc.take i) ∧
          globalFootprint g0 (tc.take i) < globalFootprint g0 (tc.take (i+1)))
    ∧ ∀ e, promoteSelect canFit kn constants = .error e → e = MErr.cannotFit kn := by
  set elig := constants.filter (fun x => !(sparseName x.name)) with helig
  have hgtlen : (sortDescSize elig).length = elig.length :=
    (sortDescSize_perm elig).length_eq
  constructor
  · intro tc htc
    obtain ⟨k, hk1, he⟩ := promoteSelect_ok_prefix canFit kn constants tc htc
    rw [← helig] at he
    have hsub : tc.Sublist (sortDescSize elig) := he ▸ List.take_sublist k _
    have hlen : tc.length ≤ elig.length := by
      have := hsub.length_le
      omega
    refine ⟨hlen, ?_⟩
    intro i hi
    have hnodup : tc.Nodup := by
      refine hsub.nodup ?_
      exact (sortDescSize_perm elig).nodup_iff.mpr (hnd.filter _)
    have hget : tc[i]? = some tc[i] := List.getElem?_eq_getElem hi
    set x := tc[i] with hx
    have htake : tc.take (i+1) = tc.take i ++ [x] := by
      rw [List.take_succ, hget]
      rfl
    have hxtc : x ∈ tc := List.getElem_mem hi
    have hxc : x ∈ constants := by
      have h1 : x ∈ elig := (sortDescSize_perm elig).mem_iff.mp (hsub.mem hxtc)
      exact (List.mem_filter.mp h1).1
    have hxpos : 0 < elemCount x := hpos x hxc
    have hxni : x ∉ tc.take i := by
      have h1 : (tc.take (i+1)).Nodup := (List.take_sublist _ _).nodup hnodup
      rw [htake] at h1
      intro hmem
      rcases List.nodup_append.mp h1 with ⟨_, _, hdis⟩
      exact hdis hmem (by simp)
    constructor
    · rw [htake]
      unfold constFootprint
      rw [filter_not_mem_append_singleton]
      apply sum_map_filter_ne_lt x _ _ hxpos
      refine List.mem_filter.mpr ⟨hxc, ?_⟩
      simpa using hxni
    · rw [htake]
      unfold globalFootprint
      simp only [List.map_append, List.sum_append, List.map_cons, List.map_nil,
        List.sum_cons, List.sum_nil]
      omega
  · intro e he
    unfold promoteSelect at he
    rcases hgt : sortDescSize (constants.filter (fun x => !(sparseName x.name)))
      with _ | ⟨g, gs⟩
    · rw [← helig] at hgt
      rw [hgt] at hgtlen
      simp only [List.length_nil] at hgtlen
      exact absurd (List.eq_nil_of_length_eq_zero hgtlen.symm) hne
    · rw [hgt] at he
      simp only at he
      exact promoteLoop_err canFit kn gs [g] e he

/-- C5 witness: budget never satisfied — the pool is exhausted and the
fatal cannot-fit error names the kernel. -/
theorem c5_witness :
    ([tvA, tvSparse, tvB] : List TempVar).Nodup
    ∧ (∀ c ∈ [tvA, tvSparse, tvB], 0 < elemCount c)
    ∧ [tvA, tvSparse, tvB].filter (fun x => !(sparseName x.name)) ≠ []
    ∧ ((∀ tc, promoteSelect (fun _ => false) "jacobian" [tvA, tvSparse, tvB] = .ok tc →
          tc.length ≤ ([tvA, tvSparse, tvB].filter (fun x => !(sparseName x.name))).length ∧
          ∀ i < tc.length,
            constFootprint [tvA, tvSparse, tvB] (tc.take (i+1)) <
              constFootprint [tvA, tvSparse, tvB] (tc.take i) ∧
            globalFootprint 7 (tc.take i) < globalFootprint 7 (tc.take (i+1)))
        ∧ ∀ e, promoteSelect (fun _ => false) "jacobian" [tvA, tvSparse, tvB] = .error e →
            e = MErr.cannotFit "jacobian") :=
  ⟨by decide, by decide, by decide,
    c5_promotion_terminating_monotonic (fun _ => false) "jacobian" [tvA, tvSparse, tvB] 7
      (by decide) (by decide) (by decide)⟩

/-- The accumulator invariant of `_get_working_buffer`: a successful run
extends the offsets accumulator by `offsetsOf` and adds the fixed sizes
to the running total. -/
theorem getWorkingBuffer_go_spec (u : Bool) :
    ∀ (l : List KernelArg) (s : Nat) (o : List (String × Nat)) (sz : Nat)
      (out : List (String × Nat)),
      getWorkingBuffer.go u s o l = .ok (sz, out) →
      out = o ++ offsetsOf s l ∧ sz = s + (l.map fixedSize).sum := by
  intro l
  induction l with
  | nil =>
    intro s o sz out h
    simp only [getWorkingBuffer.go] at h
    cases h
    simp [offsetsOf]
  | cons a rest ih =>
    intro s o sz out h
    simp only [getWorkingBuffer.go] at h
    split at h
    · simp at h
    · split at h
      · simp at h
      · obtain ⟨h1, h2⟩ := ih (s + fixedSize a) (o ++ [(a.name, s)]) sz out h
        refine ⟨?_, ?_⟩
        · rw [h1]
          simp [offsetsOf]
        · rw [h2]
          simp only [List.map_cons, List.sum_cons]
          omega

/-- Names in `offsetsOf` follow the processed arrays in order. -/
theorem offsetsOf_names (s : Nat) (l : List KernelArg) :
    (offsetsOf s l).map Prod.fst = l.map (·.name) := by
  induction l generalizing s with
  | nil => rfl
  | cons a rest ih => simp [offsetsOf, ih]

/-- The offset coefficient of array `i` is the running total of the
fixed sizes before it. -/
theorem offsetsOf_coeff (l : List KernelArg) :
    ∀ (s i : Nat) (p : String × Nat), (offsetsOf s l)[i]? = some p →
      p.2 = s + ((l.take i).map fixedSize).sum := by
  induction l with
  | nil => intro s i p h; simp [offsetsOf] at h
  | cons a rest ih =>
    intro s i p h
    cases i with
    | zero =>
      simp only [offsetsOf, List.getElem?_cons_zero, Option.some.injEq] at h
      simp [← h]
    | succ j =>
      simp only [offsetsOf, List.getElem?_cons_succ] at h
      have := ih (s + fixedSize a) j p h
      simp only [List.take_succ_cons, List.map_cons, List.sum_cons]
      omega

/-- C6: for every successful `_get_working_buffer` run the offsets are
tightly packed: the offsets list follows the arrays in processing order,
the first offset is 0, each subsequent offset is the previous offset plus
the previous array's fixed size times the work size, and the returned
elements-per-item total is the sum of all fixed sizes. -/
theorem c6_working_buffer_tight_packing (u : Bool) (args : List KernelArg)
    (sz : Nat) (offs : List (String × Nat))
    (h : getWorkingBuffer u args = .ok (sz, offs)) :
    offs.map Prod.fst = args.map (·.name)
    ∧ (∀ p, offs[0]? = some p → p.2 = 0)
    ∧ (∀ ws i p q a, offs[i]? = some p → offs[i+1]? = some q → args[i]? = some a →
        q.2 * ws = p.2 * ws + fixedSize a * ws)
    ∧ sz = (args.map fixedSize).sum := by
  obtain ⟨h1, h2⟩ := getWorkingBuffer_go_spec u args 0 [] sz offs h
  simp only [List.nil_append] at h1
  subst h1
  refine ⟨offsetsOf_names 0 args, ?_, ?_, by simpa using h2⟩
  · intro p hp
    have := offsetsOf_coeff args 0 0 p hp
    simpa using this
  · intro ws i p q a hp hq ha
    have hcp := offsetsOf_coeff args 0 i p hp
    have hcq := offsetsOf_coeff args 0 (i+1) q hq
    have htake : args.take (i+1) = args.take i ++ [a] := by
      rw [List.take_succ, ha]
      rfl
    rw [htake] at hcq
    simp only [List.map_append, List.sum_append, List.map_cons, List.map_nil,
      List.sum_cons, List.sum_nil] at hcq
    rw [hcp, hcq]
    ring

/-- C6 witness: two float arrays of fixed sizes 15 and 1 pack to offsets
0 and 15 with 16 elements per work item. -/
theorem c6_witness :
    getWorkingBuffer false [argW1, argW2] = .ok (16, [("conc", 0), ("rop", 15)])
    ∧ ([("conc", 0), ("rop", 15)].map Prod.fst = [argW1, argW2].map (·.name)
      ∧ (∀ p, [("conc", 0), ("rop", 15)][0]? = some p → p.2 = 0)
      ∧ (∀ ws i p q a, [("conc", 0), ("rop", 15)][i]? = some p →
          [("conc", 0), ("rop", 15)][i+1]? = some q → [argW1, argW2][i]? = some a →
          q.2 * ws = p.2 * ws + fixedSize a * ws)
      ∧ 16 = ([argW1, argW2].map fixedSize).sum) :=
  ⟨by rfl, c6_working_buffer_tight_packing false [argW1, argW2] 16
    [("conc", 0), ("rop", 15)] (by rfl)⟩

/-- C8: a kernel with `can_vectorize=False` and no `vecspec` fix-up makes
`apply_specialization` fail with the configuration assertion before any
transform is applied, in every mode; with a fix-up `f` supplied (in
application mode) the result is exactly `f` run on the kernel between the
batch-parallelism tagging and the trailing grid-size/unroll/ILP steps —
and neither of those steps applies the standard vectorization split (no
`vec`/`l.0` tagging). -/
theorem c8_nonvectorizable_vecspec (opts : LoopyOpts) (innerInd : String)
    (knl : Knl) (forTesting : Bool) (f : Knl → Knl) :
    (∀ getSpec, applySpecialization opts innerInd knl forTesting none false getSpec =
        .error .needsVecspec)
    ∧ applySpecialization opts innerInd knl forTesting (some f) false false =
        .ok (.kernel (postVecspec opts innerInd (f (preVecspec opts knl))))
    ∧ (∀ k t, t ∈ (preVecspec opts k).transforms →
        t ∈ k.transforms ∨
          (t = Transform.tagIname (jTagOf opts) "g.0" ∧ isVecTagged t = false))
    ∧ (∀ k t, t ∈ (postVecspec opts innerInd k).transforms →
        t ∈ k.transforms ∨ isVecTagged t = false) := by
  refine ⟨fun getSpec => rfl, ?_, ?_, ?_⟩
  · cases hd : truthy opts.depth <;> cases hw : truthy opts.width <;>
      cases hl : opts.langCanVectorize <;> cases hs : opts.isSimd <;>
      cases hu : opts.unr <;> cases hi : opts.ilp <;>
      simp [applySpecialization, preVecspec, postVecspec, jTagOf, iTagOf,
        vecWidthOf, hd, hw, hl, hs, hu, hi]
  · intro k t ht
    unfold preVecspec at ht
    cases hl : opts.langCanVectorize
    · rw [hl] at ht
      simp only [Bool.false_eq_true, if_false] at ht
      exact Or.inl ht
    · rw [hl] at ht
      simp only [if_true] at ht
      rcases List.mem_append.mp ht with h' | h'
      · exact Or.inl h'
      · refine Or.inr ⟨by simpa using h', ?_⟩
        have : t = Transform.tagIname (jTagOf opts) "g.0" := by simpa using h'
        subst this
        rfl
  · intro k t ht
    unfold postVecspec at ht
    rcases hv : vecWidthOf opts with _ | vw <;> cases hs : opts.isSimd <;>
      rcases hu : opts.unr with _ | u <;> cases hi : opts.ilp <;>
      simp only [hv, hs, hu, hi, Bool.not_true, Bool.not_false, Bool.false_eq_true,
        if_false, if_true, List.mem_append, List.mem_singleton] at ht <;>
      first
        | exact Or.inl ht
        | (rcases ht with h1 | h2
           exacts [Or.inl h1, Or.inr (by simp [h2, isVecTagged])])
        | (rcases ht with (h1 | h2) | h3
           exacts [Or.inl h1, Or.inr (by simp [h2, isVecTagged]),
             Or.inr (by simp [h3, isVecTagged])])

/-- `findFirst` returns an in-bounds index of an element satisfying the
predicate. -/
theorem findFirst_spec {α : Type} (p : α → Bool) :
    ∀ (l : List α) (i : Nat), findFirst p l = some i →
      i < l.length ∧ ∃ a, l[i]? = some a ∧ p a = true := by
  intro l
  induction l with
  | nil => intro i h; simp [findFirst] at h
  | cons x xs ih =>
    intro i h
    simp only [findFirst] at h
    split at h
    · next hp =>
      cases h
      exact ⟨by simp, x, by simp, hp⟩
    · rcases ho : findFirst p xs with _ | j
      · rw [ho] at h
        simp at h
      · rw [ho] at h
        simp only [Option.map_some'] at h
        cases h
        obtain ⟨hj, a, ha, hpa⟩ := ih j ho
        exact ⟨by simpa using Nat.succ_lt_succ hj, a, by simpa using ha, hpa⟩

/-- Positions before the insertion point are unchanged. -/
theorem insertIdx_getElem?_lt {α : Type} (x : α) :
    ∀ (l : List α) (i j : Nat), j < i → (l.insertIdx i x)[j]? = l[j]? := by
  intro l
  induction l with
  | nil =>
    intro i j hj
    cases i with
    | zero => omega
    | succ i' => rw [List.insertIdx_succ_nil]
  | cons a l' ih =>
    intro i j hj
    cases i with
    | zero => omega
    | succ i' =>
      rw [List.insertIdx_succ_cons]
      cases j with
      | zero => simp
      | succ j' =>
        simp only [List.getElem?_cons_succ]
        exact ih i' j' (by omega)

/-- The inserted element sits at the insertion point. -/
theorem insertIdx_getElem?_self {α : Type} (x : α) :
    ∀ (l : List α) (i : Nat), i ≤ l.length → (l.insertIdx i x)[i]? = some x := by
  intro l
  induction l with
  | nil =>
    intro i hi
    have h0 : i = 0 := by simpa using hi
    subst h0
    rw [List.insertIdx_zero]
    rfl
  | cons a l' ih =>
    intro i hi
    cases i with
    | zero =>
      rw [List.insertIdx_zero]
      rfl
    | succ i' =>
      rw [List.insertIdx_succ_cons]
      simpa using ih i' (by simpa using hi)

/-- Positions at or after the insertion point shift up by one. -/
theorem insertIdx_getElem?_ge {α : Type} (x : α) :
    ∀ (l : List α) (i j : Nat), i ≤ j → (l.insertIdx i x)[j + 1]? = l[j]? := by
  intro l
  induction l with
  | nil =>
    intro i j hij
    cases i with
    | zero =>
      rw [List.insertIdx_zero]
      simp
    | succ i' =>
      rw [List.insertIdx_succ_nil]
      simp
  | cons a l' ih =>
    intro i j hij
    cases i with
    | zero =>
      rw [List.insertIdx_zero]
      simp
    | succ i' =>
      rw [List.insertIdx_succ_cons]
      cases j with
      | zero => omega
      | succ j' =>
        simp only [List.getElem?_cons_succ]
        exact ih i' j' (by omega)

/-- Inserting an element that fails the predicate leaves a filter
unchanged. -/
theorem filter_insertIdx_of_neg {α : Type} (p : α → Bool) (x : α)
    (hx : p x = false) :
    ∀ (l : List α) (i : Nat), (l.insertIdx i x).filter p = l.filter p := by
  intro l
  induction l with
  | nil =>
    intro i
    cases i with
    | zero =>
      rw [List.insertIdx_zero]
      simp [List.filter_cons, hx]
    | succ i' => rw [List.insertIdx_succ_nil]
  | cons a l' ih =>
    intro i
    cases i with
    | zero =>
      rw [List.insertIdx_zero]
      simp [List.filter_cons, hx]
    | succ i' =>
      rw [List.insertIdx_succ_cons]
      simp only [List.filter_cons]
      rw [ih i']

/-- Reduction of `barrierStep` once the search index is known. -/
theorem barrierStep_eq_found (templates : String → String) (lineEnd : String)
    (w : List (Option Nat × String)) (b : Barrier) (idx : Nat)
    (hf : findFirst (fun p => p.1 = some b.after) w = some idx) :
    barrierStep templates lineEnd w b =
      match (if idx = 0 then w.getLast? else w[idx - 1]?) with
      | none => .error .stopIteration
      | some p =>
        if p.1 = some b.before then
          .ok (w.insertIdx idx (none, templates b.kind ++ lineEnd))
        else .error .orderAssertion := by
  unfold barrierStep
  rw [hf]

/-- Characterisation of a successful `apply_barriers` iteration: the
`after` call was found at `idx`, the ordering assertion passed, and the
barrier statement was inserted at `idx`. -/
theorem barrierStep_ok_spec (templates : String → String) (lineEnd : String)
    (w w' : List (Option Nat × String)) (b : Barrier)
    (h : barrierStep templates lineEnd w b = .ok w') :
    ∃ idx a, findFirst (fun p => p.1 = some b.after) w = some idx
      ∧ idx < w.length ∧ w[idx]? = some a ∧ a.1 = some b.after
      ∧ w' = w.insertIdx idx (none, templates b.kind ++ lineEnd)
      ∧ (idx = 0 ∨ ∃ q, w[idx - 1]? = some q ∧ q.1 = some b.before) := by
  rcases hf : findFirst (fun p => p.1 = some b.after) w with _ | idx
  · unfold barrierStep at h
    rw [hf] at h
    simp at h
  · rw [barrierStep_eq_found templates lineEnd w b idx hf] at h
    obtain ⟨hlt, a, ha, hpa⟩ := findFirst_spec _ w idx hf
    rcases hidx : (if idx = 0 then w.getLast? else w[idx - 1]?) with _ | q
    · rw [hidx] at h
      exact absurd h (by simp)
    · rw [hidx] at h
      dsimp only at h
      by_cases hq : q.1 = some b.before
      · rw [if_pos hq] at h
        cases h
        refine ⟨idx, a, hf, hlt, ha, by simpa using hpa, rfl, ?_⟩
        by_cases h0 : idx = 0
        · exact Or.inl h0
        · rw [if_neg h0] at hidx
          exact Or.inr ⟨q, hidx, hq⟩
      · rw [if_neg hq] at h
        exact absurd h (by simp)

/-- The ordering assertion of `apply_barriers`: if the instruction
immediately preceding the insertion point is not the `before` kernel's
call, the iteration fails. -/
theorem barrierStep_order_error (templates : String → String) (lineEnd : String)
    (w : List (Option Nat × String)) (b : Barrier) (idx : Nat)
    (q : Option Nat × String)
    (hf : findFirst (fun p => p.1 = some b.after) w = some idx)
    (h0 : idx ≠ 0) (hq : w[idx - 1]? = some q) (hqb : ¬q.1 = some b.before) :
    barrierStep templates lineEnd w b = .error .orderAssertion := by
  rw [barrierStep_eq_found templates lineEnd w b idx hf, if_neg h0, hq]
  simp only [hqb, if_false]

/-- A successful iteration preserves every already-established
barrier/successor adjacency. -/
theorem barrierStep_preserves_pair (templates : String → String)
    (lineEnd : String) (w w' : List (Option Nat × String)) (b : Barrier)
    (h : barrierStep templates lineEnd w b = .ok w')
    (txt : String) (aft : Nat)
    (hp : ∃ i s, w[i]? = some (none, txt) ∧ w[i + 1]? = some (some aft, s)) :
    ∃ i s, w'[i]? = some (none, txt) ∧ w'[i + 1]? = some (some aft, s) := by
  obtain ⟨idx, a, hf, hlt, ha, haft, hw', hpre⟩ :=
    barrierStep_ok_spec templates lineEnd w w' b h
  obtain ⟨i, s, hbar, hnext⟩ := hp
  subst hw'
  rcases Nat.lt_trichotomy idx (i + 1) with hc | hc | hc
  · -- idx ≤ i : both positions shift up by one
    refine ⟨i + 1, s, ?_, ?_⟩
    · rw [insertIdx_getElem?_ge _ w idx i (by omega)]
      exact hbar
    · rw [insertIdx_getElem?_ge _ w idx (i + 1) (by omega)]
      exact hnext
  · -- idx = i + 1 : contradicts the passed ordering assertion
    exfalso
    rcases hpre with h0 | ⟨q, hq, hqb⟩
    · omega
    · rw [hc] at hq
      simp only [Nat.add_sub_cancel] at hq
      rw [hbar] at hq
      cases hq
      simp at hqb
  · -- i + 1 < idx : both positions unchanged
    refine ⟨i, s, ?_, ?_⟩
    · rw [insertIdx_getElem?_lt _ w idx i (by omega)]
      exact hbar
    · rw [insertIdx_getElem?_lt _ w idx (i + 1) (by omega)]
      exact hnext

/-- The whole fold preserves every barrier/successor adjacency. -/
theorem fold_preserves_pair (templates : String → String) (lineEnd : String) :
    ∀ (bs : List Barrier) (w w' : List (Option Nat × String)),
      bs.foldlM (barrierStep templates lineEnd) w = .ok w' →
      ∀ (txt : String) (aft : Nat),
        (∃ i s, w[i]? = some (none, txt) ∧ w[i + 1]? = some (some aft, s)) →
        ∃ i s, w'[i]? = some (none, txt) ∧ w'[i + 1]? = some (some aft, s) := by
  intro bs
  induction bs with
  | nil =>
    intro w w' h txt aft hp
    simp only [List.foldlM_nil] at h
    cases h
    exact hp
  | cons b rest ih =>
    intro w w' h txt aft hp
    rw [List.foldlM_cons] at h
    rcases hs : barrierStep templates lineEnd w b with e | w1
    · rw [hs] at h
      simp [bind, Except.bind] at h
    · rw [hs] at h
      simp only [bind, Except.bind] at h
      exact ih w1 w' h txt aft
        (barrierStep_preserves_pair templates lineEnd w w1 b hs txt aft hp)

/-- The fold of barrier iterations keeps the originally-tagged
instructions (and only them) in order, grows by exactly one statement per
triple, and leaves every inserted barrier immediately before its `after`
call. -/
theorem applyBarriersT_fold_spec (templates : String → String)
    (lineEnd : String) :
    ∀ (bs : List Barrier) (w w' : List (Option Nat × String)),
      bs.foldlM (barrierStep templates lineEnd) w = .ok w' →
      w'.filter (fun p => p.1.isSome) = w.filter (fun p => p.1.isSome)
      ∧ w'.length = w.length + bs.length
      ∧ ∀ b ∈ bs, ∃ i s, w'[i]? = some (none, templates b.kind ++ lineEnd)
          ∧ w'[i + 1]? = some (some b.after, s) := by
  intro bs
  induction bs with
  | nil =>
    intro w w' h
    simp only [List.foldlM_nil] at h
    cases h
    simp
  | cons b rest ih =>
    intro w w' h
    rw [List.foldlM_cons] at h
    rcases hs : barrierStep templates lineEnd w b with e | w1
    · rw [hs] at h
      simp [bind, Except.bind] at h
    · rw [hs] at h
      simp only [bind, Except.bind] at h
      obtain ⟨hfil, hlen, hpairs⟩ := ih w1 w' h
      obtain ⟨idx, a, hf, hlt, ha, haft, hw1, hpre⟩ :=
        barrierStep_ok_spec templates lineEnd w w1 b hs
      refine ⟨?_, ?_, ?_⟩
      · rw [hfil, hw1, filter_insertIdx_of_neg _ _ rfl]
      · rw [hlen, hw1, List.length_insertIdx idx _ (by omega)]
        simp only [List.length_cons]
        omega
      · intro b' hb'
        rcases List.mem_cons.mp hb' with rfl | hb2
        · refine fold_preserves_pair templates lineEnd rest w1 w' h _ _ ?_
          refine ⟨idx, a.2, ?_, ?_⟩
          · rw [hw1]
            exact insertIdx_getElem?_self _ w idx (by omega)
          · rw [hw1, insertIdx_getElem?_ge _ w idx idx (by omega)]
            rw [ha]
            have : a = (some b'.after, a.2) := by
              rcases a with ⟨a1, a2⟩
              simp only at haft
              rw [haft]
            rw [← this]
        · exact hpairs b' hb2

/-- C7: barrier insertion keeps all original instructions in their
original relative order, adds exactly one barrier statement per requested
triple, places each inserted statement immediately before its `after`
kernel's call, and raises the fatal ordering assertion whenever the
instruction immediately preceding the insertion point is not the `before`
kernel's call (an error in any iteration aborts the whole insertion). -/
theorem c7_barrier_insertion (templates : String → String) (lineEnd : String)
    (instructions : List String) (barriers : List Barrier) :
    (∀ w, applyBarriersT templates lineEnd barriers instructions = .ok w →
        applyBarriers templates lineEnd barriers instructions = .ok (w.map Prod.snd)
        ∧ instructions.Sublist (w.map Prod.snd)
        ∧ w.filter (fun p => p.1.isSome) =
            instructions.enum.map (fun p => (some p.1, p.2))
        ∧ w.length = instructions.length + barriers.length
        ∧ ∀ b ∈ barriers, ∃ i s,
            w[i]? = some (none, templates b.kind ++ lineEnd)
            ∧ w[i + 1]? = some (some b.after, s))
    ∧ (∀ w b idx q, findFirst (fun p => (p : Option Nat × String).1 = some b.after) w = some idx →
        idx ≠ 0 → w[idx - 1]? = some q → ¬q.1 = some b.before →
        barrierStep templates lineEnd w b = .error .orderAssertion)
    ∧ (∀ pre b post w1 e, barriers = pre ++ b :: post →
        pre.foldlM (barrierStep templates lineEnd)
          (instructions.enum.map (fun p => (some p.1, p.2))) = .ok w1 →
        barrierStep templates lineEnd w1 b = .error e →
        applyBarriers templates lineEnd barriers instructions = .error e) := by
  refine ⟨?_, ?_, ?_⟩
  · intro w hw
    have hinit : (instructions.enum.map
        (fun p => ((some p.1 : Option Nat), p.2))).filter (fun p => p.1.isSome) =
        instructions.enum.map (fun p => (some p.1, p.2)) := by
      apply List.filter_eq_self.mpr
      intro p hp
      obtain ⟨q, _, rfl⟩ := List.mem_map.mp hp
      rfl
    obtain ⟨hfil, hlen, hpairs⟩ :=
      applyBarriersT_fold_spec templates lineEnd barriers _ w hw
    rw [hinit] at hfil
    have hsndinit : (instructions.enum.map
        (fun p => ((some p.1 : Option Nat), p.2))).map Prod.snd = instructions := by
      rw [List.map_map]
      exact List.enum_map_snd instructions
    refine ⟨?_, ?_, hfil, ?_, hpairs⟩
    · unfold applyBarriers
      rw [hw]
    · have h1 : (w.filter (fun p => p.1.isSome)).map Prod.snd = instructions := by
        rw [hfil, hsndinit]
      have h2 := (List.filter_sublist (p := fun p => p.1.isSome) w).map Prod.snd
      rw [h1] at h2
      exact h2
    · rw [hlen]
      simp
  · intro w b idx q hf h0 hq hqb
    exact barrierStep_order_error templates lineEnd w b idx q hf h0 hq hqb
  · intro pre b post w1 e hbar h1 he
    unfold applyBarriers applyBarriersT
    rw [hbar, List.foldlM_append, h1]
    simp only [bind, Except.bind, List.foldlM_cons, he]

/-- C7 witness: one barrier requested between instructions 0 and 1 of a
three-instruction stream; the run succeeds with the statement inserted
immediately before instruction 1. -/
theorem c7_witness :
    applyBarriersT tmplW ";" barsW instrsW = .ok wtagW
    ∧ (applyBarriers tmplW ";" barsW instrsW = .ok (wtagW.map Prod.snd)
      ∧ instrsW.Sublist (wtagW.map Prod.snd)
      ∧ wtagW.filter (fun p => p.1.isSome) =
          instrsW.enum.map (fun p => (some p.1, p.2))
      ∧ wtagW.length = instrsW.length + barsW.length
      ∧ ∀ b ∈ barsW, ∃ i s,
          wtagW[i]? = some (none, tmplW b.kind ++ ";")
          ∧ wtagW[i + 1]? = some (some b.after, s)) :=
  ⟨by rfl, (c7_barrier_insertion tmplW ";" instrsW barsW).1 wtagW (by rfl)⟩

/-- C5 counterexample: with zero eligible candidates (the only constant
is a sparse-Jacobian array) and an unsatisfiable budget, the pool is
exhausted while the kernel does not fit, yet `_process_memory` fails with
the `gtemps[0]` IndexError — not the cannot-fit-in-memory error naming
the kernel that the claim promises. -/
theorem c5_counterexample :
    processMemory (fun _ => false) "jacobian" [] [] [] [tvSparse] =
      .error .indexErr
    ∧ MErr.indexErr ≠ MErr.cannotFit "jacobian" :=
  ⟨by rfl, by decide⟩

/-- Membership in `sinsert`. -/
theorem mem_sinsert (a s : String) : ∀ l : List String,
    a ∈ sinsert s l ↔ a = s ∨ a ∈ l := by
  intro l
  induction l with
  | nil => simp [sinsert]
  | cons t ts ih =>
    simp only [sinsert]
    by_cases h1 : s = t
    · subst h1
      rw [if_pos rfl]
      simp only [List.mem_cons]
      tauto
    · rw [if_neg h1]
      by_cases h2 : s < t
      · rw [if_pos h2]
        simp only [List.mem_cons]
      · rw [if_neg h2]
        simp only [List.mem_cons, ih]
        tauto

/-- `sinsert` preserves strict sortedness. -/
theorem sinsert_pairwise (s : String) : ∀ l : List String,
    List.Pairwise (· < ·) l → List.Pairwise (· < ·) (sinsert s l) := by
  intro l
  induction l with
  | nil =>
    intro _
    simp [sinsert]
  | cons t ts ih =>
    intro h
    obtain ⟨ht, hts⟩ := List.pairwise_cons.mp h
    simp only [sinsert]
    by_cases h1 : s = t
    · rw [if_pos h1]
      exact h
    · rw [if_neg h1]
      by_cases h2 : s < t
      · rw [if_pos h2]
        refine List.pairwise_cons.mpr ⟨?_, h⟩
        intro b hb
        rcases List.mem_cons.mp hb with rfl | hb
        · exact h2
        · exact lt_trans h2 (ht b hb)
      · rw [if_neg h2]
        have htls : t < s := by
          rcases lt_trichotomy s t with h' | h' | h'
          · exact absurd h' h2
          · exact absurd h' h1
          · exact h'
        refine List.pairwise_cons.mpr ⟨?_, ih hts⟩
        intro b hb
        rcases (mem_sinsert b s ts).mp hb with rfl | hb
        · exact htls
        · exact ht b hb

/-- `sortedDedup` is strictly sorted. -/
theorem sortedDedup_pairwise (l : List String) :
    List.Pairwise (· < ·) (sortedDedup l) := by
  induction l with
  | nil => simp [sortedDedup]
  | cons a as ih => exact sinsert_pairwise a (sortedDedup as) ih

/-- `sortedDedup` has the same members as its input. -/
theorem mem_sortedDedup (a : String) : ∀ l : List String,
    a ∈ sortedDedup l ↔ a ∈ l := by
  intro l
  induction l with
  | nil => simp [sortedDedup]
  | cons b bs ih =>
    simp only [sortedDedup, List.foldr_cons, List.mem_cons]
    rw [mem_sinsert]
    simp only [sortedDedup] at ih
    rw [ih]

/-- Two strictly-sorted string lists with the same members are equal. -/
theorem strictSorted_unique : ∀ (l₁ l₂ : List String),
    List.Pairwise (· < ·) l₁ → List.Pairwise (· < ·) l₂ →
    (∀ s, s ∈ l₁ ↔ s ∈ l₂) → l₁ = l₂ := by
  intro l₁
  induction l₁ with
  | nil =>
    intro l₂ _ _ hm
    cases l₂ with
    | nil => rfl
    | cons b bs => exact absurd ((hm b).mpr (by simp)) (by simp)
  | cons a as ih =>
    intro l₂ h₁ h₂ hm
    cases l₂ with
    | nil => exact absurd ((hm a).mp (by simp)) (by simp)
    | cons b bs =>
      obtain ⟨ha, has⟩ := List.pairwise_cons.mp h₁
      obtain ⟨hb, hbs⟩ := List.pairwise_cons.mp h₂
      have hab : a = b := by
        rcases List.mem_cons.mp ((hm a).mp (by simp)) with h' | h'
        · exact h'
        · rcases List.mem_cons.mp ((hm b).mpr (by simp)) with h'' | h'' 
          · exact h''.symm
          · exact absurd (lt_trans (hb a h') (ha b h'')) (lt_irrefl b)
      subst hab
      have hms : ∀ s, s ∈ as ↔ s ∈ bs := by
        intro s
        constructor
        · intro hs
          rcases List.mem_cons.mp ((hm s).mp (List.mem_cons_of_mem a hs)) with rfl | h'
          · exact absurd (ha s hs) (lt_irrefl s)
          · exact h'
        · intro hs
          rcases List.mem_cons.mp ((hm s).mpr (List.mem_cons_of_mem a hs)) with rfl | h'
          · exact absurd (hb s hs) (lt_irrefl s)
          · exact h'
      rw [ih bs has hbs hms]

/-- Strings in a strictly-sorted list are pairwise distinct. -/
theorem strictSorted_nodup (l : List String)
    (h : List.Pairwise (· < ·) l) : l.Nodup :=
  h.imp (fun hab => ne_of_lt hab)

/-- `firstSeenDedup` neither adds nor loses members. -/
theorem mem_firstSeenDedup (a : KernelArg) : ∀ l : List KernelArg,
    a ∈ firstSeenDedup l ↔ a ∈ l := by
  intro l
  induction l with
  | nil => simp [firstSeenDedup]
  | cons x xs ih =>
    rw [firstSeenDedup]
    simp only [List.mem_cons, List.mem_filter, ih]
    constructor
    · rintro (rfl | ⟨h1, _⟩)
      · exact Or.inl rfl
      · exact Or.inr h1
    · rintro (rfl | h1)
      · exact Or.inl rfl
      · by_cases hax : a = x
        · exact Or.inl hax
        · exact Or.inr ⟨h1, by simpa using hax⟩

/-- `firstSeenDedup` keeps each argument object once. -/
theorem firstSeenDedup_nodup : ∀ l : List KernelArg,
    (firstSeenDedup l).Nodup := by
  intro l
  induction l with
  | nil => simp [firstSeenDedup]
  | cons x xs ih =>
    rw [firstSeenDedup]
    refine List.nodup_cons.mpr ⟨?_, ih.filter _⟩
    intro hx
    have := (List.mem_filter.mp hx).2
    simp at this

/-- The variants of a name are exactly the distinct gathered argument
objects bearing it. -/
theorem mem_variantsOf (a : KernelArg) (args : List KernelArg) (n : String) :
    a ∈ variantsOf args n ↔ a ∈ args ∧ a.name = n := by
  unfold variantsOf
  rw [mem_firstSeenDedup]
  simp [List.mem_filter]

/-- Every variant of a name bears that name. -/
theorem variantsOf_name (a : KernelArg) (args : List KernelArg) (n : String)
    (h : a ∈ variantsOf args n) : a.name = n :=
  ((mem_variantsOf a args n).mp h).2

/-- Variant lists are duplicate-free. -/
theorem variantsOf_nodup (args : List KernelArg) (n : String) :
    (variantsOf args n).Nodup :=
  firstSeenDedup_nodup _

/-- A name occurring in the gathered arguments has a variant. -/
theorem variantsOf_ne_nil (args : List KernelArg) (n : String)
    (h : n ∈ args.map (·.name)) : variantsOf args n ≠ [] := by
  obtain ⟨a, ha, hn⟩ := List.mem_map.mp h
  intro hnil
  have : a ∈ variantsOf args n := (mem_variantsOf a args n).mpr ⟨ha, hn⟩
  rw [hnil] at this
  cases this

/-- Components of equal atomified arguments agree except possibly in
atomicity. -/
theorem atomify_eq_components {x y : KernelArg} (h : atomify x = atomify y) :
    x.name = y.name ∧ x.isValue = y.isValue := by
  cases x
  cases y
  simp only [atomify, KernelArg.mk.injEq] at h
  exact ⟨h.1, h.2.1⟩

/-- `_compare_args` in propositional form. -/
theorem compareArgs_iff (a b : KernelArg) :
    compareArgs a b = true ↔ a = b ∨ atomify a = atomify b := by
  simp [compareArgs]

/-- A singleton variant list resolves to its element and leaves the
kernels untouched. -/
theorem resolveName_singleton (own ks : List Kernel) (v : KernelArg) :
    resolveName own [v] ks = .ok (v, ks) := by
  simp [resolveName]

/-- An atomic/non-atomic pair (in either first-seen order) resolves to
the atomic variant and rewrites the own kernels. -/
theorem resolveName_pair_atomic (own ks : List Kernel) (x y : KernelArg)
    (hx : x.atomic = false) (hy : y.atomic = true)
    (hat : atomify x = atomify y) :
    resolveName own [x, y] ks = .ok (y, rewriteStep own x y ks)
    ∧ resolveName own [y, x] ks = .ok (y, rewriteStep own x y ks) := by
  have hxy : x ≠ y := by
    intro h
    rw [h, hy] at hx
    cases hx
  have h3 : compareArgs x y = true := by
    rw [compareArgs_iff]
    exact Or.inr hat
  constructor
  · have h1 : List.find? (fun x => x.atomic) [x, y] = some y := by
      simp [List.find?, hx, hy]
    have h2 : List.find? (fun a => !(a = y : Bool)) [x, y] = some x := by
      simp [List.find?, hxy]
    simp [resolveName, h1, h2, h3]
  · have h1 : List.find? (fun x => x.atomic) [y, x] = some y := by
      simp [List.find?, hy]
    have h2 : List.find? (fun a => !(a = y : Bool)) [y, x] = some x := by
      simp [List.find?, hxy]
    simp [resolveName, h1, h2, h3]

/-- Variants that are neither a singleton nor an atomicity pair raise the
conflict error naming the variants. -/
theorem resolveName_conflict (own ks : List Kernel) (vs : List KernelArg)
    (hnd : vs.Nodup) (h2 : 2 ≤ vs.length)
    (hnr : ¬ differOnlyInAtomicity vs) :
    resolveName own vs ks = .error (.conflict vs) := by
  unfold resolveName
  rw [if_neg (by omega)]
  rcases hf : List.find? (fun x => x.atomic) vs with _ | a
  · rw [hf]
  · rw [hf]
    dsimp only
    by_cases hlen : 2 < vs.length
    · rw [if_pos hlen]
    · rw [if_neg hlen]
      have hvs2 : vs.length = 2 := by omega
      rcases vs with _ | ⟨p, _ | ⟨q, _ | ⟨z, rest⟩⟩⟩ <;> simp only [List.length_cons,
        List.length_nil] at hvs2
      · omega
      · omega
      · have hpq : p ≠ q := by
          intro h
          rw [h] at hnd
          simp at hnd
        have hnat : ¬ atomify p = atomify q := fun h => hnr ⟨p, q, rfl, hpq, h⟩
        rcases hf2 : List.find? (fun x => !(x = a : Bool)) [p, q] with _ | o
        · exfalso
          have hall := List.find?_eq_none.mp hf2
          have hp := hall p (by simp)
          have hq := hall q (by simp)
          simp only [Bool.not_eq_true', Bool.not_eq_false, decide_eq_true_eq] at hp hq
          exact hpq (hp.trans hq.symm)
        · have homem : o ∈ ([p, q] : List KernelArg) := List.mem_of_find?_eq_some hf2
          have hamem : a ∈ ([p, q] : List KernelArg) := List.mem_of_find?_eq_some hf
          have hoa : o ≠ a := by
            have := List.find?_some hf2
            simpa using this
          dsimp only
          rw [if_neg ?hng]
          case hng =>
            rw [compareArgs_iff]
            rintro (h | h)
            · exact hoa h
            · have ho2 : o = p ∨ o = q := by simpa using homem
              have ha2 : a = p ∨ a = q := by simpa using hamem
              rcases ho2 with rfl | rfl <;> rcases ha2 with rfl | rfl
              · exact hoa rfl
              · exact hnat h
              · exact hnat h.symm
              · exact hoa rfl
      · omega

/-- Inversion of a successful single-name resolution: the canonical
argument is one of the variants, and every variant agrees with it on name
and value-kind. -/
theorem resolveName_ok_inv (own ks ks' : List Kernel) (vs : List KernelArg)
    (c : KernelArg) (h : resolveName own vs ks = .ok (c, ks')) :
    c ∈ vs ∧ ∀ v ∈ vs, v.name = c.name ∧ v.isValue = c.isValue := by
  unfold resolveName at h
  split at h
  · next hlen =>
    rcases vs with _ | ⟨v, _ | ⟨w, tl⟩⟩ <;> simp only [List.length_cons,
      List.length_nil] at hlen
    · omega
    · cases h
      refine ⟨by simp, ?_⟩
      intro u hu
      simp only [List.mem_singleton] at hu
      subst hu
      exact ⟨rfl, rfl⟩
    · omega
  · next hlen =>
    rcases hf : List.find? (fun x => x.atomic) vs with _ | a <;> rw [hf] at h
    · simp at h
    · dsimp only at h
      split at h
      · simp at h
      · next hgt =>
        rcases hf2 : List.find? (fun x => !(x = a : Bool)) vs with _ | o <;>
          rw [hf2] at h
        · simp at h
        · dsimp only at h
          split at h
          · next hcmp =>
            cases h
            have hoc : o.name = c.name ∧ o.isValue = c.isValue := by
              rcases (compareArgs_iff o c).mp hcmp with h' | h'
              · rw [h']
                exact ⟨rfl, rfl⟩
              · exact atomify_eq_components h'
            have hmema : c ∈ vs := List.mem_of_find?_eq_some hf
            refine ⟨hmema, ?_⟩
            rcases vs with _ | ⟨p, _ | ⟨q, _ | ⟨z, rest⟩⟩⟩
            · simp at hmema
            · simp at hlen
            · intro v hv
              have hpa : p = c ∨ p = o := by
                by_cases hpc : p = c
                · exact Or.inl hpc
                · right
                  have hfp : List.find? (fun x => !(x = c : Bool)) [p, q] = some p :=
                    List.find?_cons_of_pos _ (by simpa using hpc)
                  rw [hfp] at hf2
                  exact Option.some.inj hf2
              have hqa : q = c ∨ q = o := by
                by_cases hqc : q = c
                · exact Or.inl hqc
                · right
                  have hcp : c = p := by
                    rcases (by simpa using hmema : c = p ∨ c = q) with h' | h'
                    · exact h'
                    · exact absurd h'.symm hqc
                  have hfq : List.find? (fun x => !(x = c : Bool)) [p, q] = some q := by
                    rw [List.find?_cons_of_neg _ (by simp [hcp]),
                      List.find?_cons_of_pos _ (by simpa using hqc)]
                  rw [hfq] at hf2
                  exact Option.some.inj hf2
              rcases (by simpa using hv : v = p ∨ v = q) with rfl | rfl
              · rcases hpa with h' | h' <;> rw [h']
                · exact ⟨rfl, rfl⟩
                · exact hoc
              · rcases hqa with h' | h' <;> rw [h']
                · exact ⟨rfl, rfl⟩
                · exact hoc
            · exfalso
              simp only [List.length_cons] at hgt
              omega
          · simp at h

/-- If two atomified arguments agree and their atomic flags agree, they
are equal. -/
theorem eq_of_atomify_eq {x y : KernelArg} (hat : atomify x = atomify y)
    (hfl : x.atomic = y.atomic) : x = y := by
  cases x
  cases y
  simp only [atomify, KernelArg.mk.injEq] at hat
  simp only [KernelArg.mk.injEq] at hfl ⊢
  exact ⟨hat.1, hat.2.1, hat.2.2.1, hfl, hat.2.2.2.2⟩

/-- A singleton or atomicity-pair variant list resolves successfully. -/
theorem resolveName_ok_of_resolvable (own ks : List Kernel)
    (vs : List KernelArg)
    (h : (∃ v, vs = [v]) ∨ differOnlyInAtomicity vs) :
    ∃ c ks', resolveName own vs ks = .ok (c, ks') := by
  rcases h with ⟨v, rfl⟩ | ⟨x, y, rfl, hxy, hat⟩
  · exact ⟨v, ks, resolveName_singleton own ks v⟩
  · have hfl : x.atomic ≠ y.atomic := fun h => hxy (eq_of_atomify_eq hat h)
    cases hx : x.atomic
    · have hy : y.atomic = true := by
        cases hy : y.atomic
        · rw [hx, hy] at hfl
          exact absurd rfl hfl
        · rfl
      exact ⟨y, rewriteStep own x y ks,
        (resolveName_pair_atomic own ks x y hx hy hat).1⟩
    · have hy : y.atomic = false := by
        cases hy : y.atomic
        · rfl
        · rw [hx, hy] at hfl
          exact absurd rfl hfl
      exact ⟨x, rewriteStep own y x ks,
        (resolveName_pair_atomic own ks y x hy hx hat.symm).2⟩

/-- Inversion of the resolution fold: the canonical list extends the
accumulator by one variant per name, each agreeing with all its
same-named variants on name and value-kind. -/
theorem resolveFold_ok_inv (own : List Kernel) (A : List KernelArg) :
    ∀ (ns : List String) (kd₀ : List KernelArg) (ks₀ : List Kernel)
      (kd' : List KernelArg) (ks' : List Kernel),
      resolveFold own A ns kd₀ ks₀ = .ok (kd', ks') →
      ∃ canons, kd' = kd₀ ++ canons
        ∧ List.Forall₂ (fun m c => c ∈ variantsOf A m
            ∧ ∀ v ∈ variantsOf A m, v.name = c.name ∧ v.isValue = c.isValue)
          ns canons := by
  intro ns
  induction ns with
  | nil =>
    intro kd₀ ks₀ kd' ks' h
    simp only [resolveFold] at h
    cases h
    exact ⟨[], by simp, List.Forall₂.nil⟩
  | cons n ns' ih =>
    intro kd₀ ks₀ kd' ks' h
    simp only [resolveFold] at h
    rcases hr : resolveName own (variantsOf A n) ks₀ with e | ⟨c, ks1⟩ <;>
      rw [hr] at h
    · simp at h
    · dsimp only at h
      obtain ⟨canons, hkd, hfa⟩ := ih (kd₀ ++ [c]) ks1 kd' ks' h
      obtain ⟨hmem, hagree⟩ := resolveName_ok_inv own ks₀ ks1 _ c hr
      exact ⟨c :: canons, by simpa [List.append_assoc] using hkd,
        List.Forall₂.cons ⟨hmem, hagree⟩ hfa⟩

/-- A fold over names whose variants are all singletons succeeds, leaves
the kernels untouched, and appends exactly the unique variants. -/
theorem resolveFold_singletons (own : List Kernel) (A : List KernelArg) :
    ∀ (ns : List String) (kd₀ : List KernelArg) (ks₀ : List Kernel),
      (∀ m ∈ ns, ∃ v, variantsOf A m = [v]) →
      ∃ canons, resolveFold own A ns kd₀ ks₀ = .ok (kd₀ ++ canons, ks₀)
        ∧ List.Forall₂ (fun m c => variantsOf A m = [c]) ns canons := by
  intro ns
  induction ns with
  | nil =>
    intro kd₀ ks₀ _
    exact ⟨[], by simp [resolveFold], List.Forall₂.nil⟩
  | cons n ns' ih =>
    intro kd₀ ks₀ hall
    obtain ⟨v, hv⟩ := hall n (by simp)
    obtain ⟨canons, hfold, hfa⟩ :=
      ih (kd₀ ++ [v]) ks₀ (fun m hm => hall m (List.mem_cons_of_mem n hm))
    refine ⟨v :: canons, ?_, List.Forall₂.cons hv hfa⟩
    simp only [resolveFold, hv, resolveName_singleton]
    rw [hfold]
    simp [List.append_assoc]

/-- The resolution fold fails on the (sorted-)first conflicting name,
naming its variants; earlier resolvable names are passed through. -/
theorem resolveFold_conflict (own : List Kernel) (A : List KernelArg) :
    ∀ (ns : List String) (kd₀ : List KernelArg) (ks₀ : List Kernel)
      (n : String), n ∈ ns →
      (∀ m ∈ ns, variantsOf A m ≠ []) →
      2 ≤ (variantsOf A n).length →
      ¬ differOnlyInAtomicity (variantsOf A n) →
      ∃ m, 2 ≤ (variantsOf A m).length
        ∧ ¬ differOnlyInAtomicity (variantsOf A m)
        ∧ resolveFold own A ns kd₀ ks₀ = .error (.conflict (variantsOf A m)) := by
  intro ns
  induction ns with
  | nil =>
    intro kd₀ ks₀ n hn _ _ _
    cases hn
  | cons m₀ ns' ih =>
    intro kd₀ ks₀ n hn hne h2 hnr
    by_cases hc : 2 ≤ (variantsOf A m₀).length ∧
        ¬ differOnlyInAtomicity (variantsOf A m₀)
    · refine ⟨m₀, hc.1, hc.2, ?_⟩
      simp only [resolveFold,
        resolveName_conflict own ks₀ (variantsOf A m₀) (variantsOf_nodup A m₀)
          hc.1 hc.2]
    · have hres : (∃ v, variantsOf A m₀ = [v]) ∨
          differOnlyInAtomicity (variantsOf A m₀) := by
        by_cases hd : differOnlyInAtomicity (variantsOf A m₀)
        · exact Or.inr hd
        · left
          have hlen : (variantsOf A m₀).length < 2 := by
            by_contra hge
            exact hc ⟨by omega, hd⟩
          have hnn := hne m₀ (by simp)
          rcases hv : variantsOf A m₀ with _ | ⟨v, _ | ⟨w, tl⟩⟩
          · exact absurd hv hnn
          · exact ⟨v, rfl⟩
          · rw [hv] at hlen
            simp at hlen
            omega
      obtain ⟨c, ks1, hok⟩ := resolveName_ok_of_resolvable own ks₀ _ hres
      have hnm : n ≠ m₀ := by
        intro heq
        subst heq
        exact hc ⟨h2, hnr⟩
      have hn' : n ∈ ns' := by
        rcases List.mem_cons.mp hn with h' | h'
        · exact absurd h' hnm
        · exact h'
      obtain ⟨m, hm2, hmnr, hfold⟩ :=
        ih (kd₀ ++ [c]) ks1 n hn' (fun m hm => hne m (List.mem_cons_of_mem m₀ hm))
          h2 hnr
      refine ⟨m, hm2, hmnr, ?_⟩
      simp only [resolveFold, hok]
      exact hfold

/-- C3: a name collision that is not a pure atomicity pair — more than
two distinct variants, or two variants differing in shape, base type,
value-kind or anything beyond atomicity — makes `_process_args` raise
the fatal conflict error carrying the distinct variants of a conflicting
name; it never silently picks one. -/
theorem c3_unresolvable_conflict_fatal (hoist : Bool) (own deps : List Kernel)
    (extra : List ExtraDatum) (n : String)
    (h2 : 2 ≤ (variantsOf (gatherArgs (own ++ deps) extra) n).length)
    (hnr : ¬ differOnlyInAtomicity (variantsOf (gatherArgs (own ++ deps) extra) n)) :
    ∃ m, 2 ≤ (variantsOf (gatherArgs (own ++ deps) extra) m).length
      ∧ ¬ differOnlyInAtomicity (variantsOf (gatherArgs (own ++ deps) extra) m)
      ∧ processArgs hoist own deps extra =
          .error (.conflict (variantsOf (gatherArgs (own ++ deps) extra) m)) := by
  set A := gatherArgs (own ++ deps) extra with hA
  have hnmem : n ∈ A.map (·.name) := by
    rcases hv : variantsOf A n with _ | ⟨v, tl⟩
    · rw [hv] at h2
      simp at h2
    · have hvm : v ∈ variantsOf A n := by
        rw [hv]
        simp
      obtain ⟨hva, hvn⟩ := (mem_variantsOf v A n).mp hvm
      exact List.mem_map.mpr ⟨v, hva, hvn⟩
  obtain ⟨m, hm2, hmnr, hfold⟩ :=
    resolveFold_conflict own A (sortedDedup (A.map (·.name))) [] (own ++ deps) n
      ((mem_sortedDedup n _).mpr hnmem)
      (fun m hm => variantsOf_ne_nil A m ((mem_sortedDedup m _).mp hm))
      h2 hnr
  refine ⟨m, hm2, hmnr, ?_⟩
  unfold processArgs
  dsimp only
  rw [← hA, hfold]

/-- The rewrite loop structurally: own kernels are rewritten in place,
dependency kernels (beyond the own prefix) are untouched. -/
theorem rewriteStep_own_append (o a : KernelArg) :
    ∀ (own deps : List Kernel),
      rewriteStep own o a (own ++ deps) =
        own.map (fun k => if o ∈ k.args then rewriteKernelArgs o a k else k)
          ++ deps := by
  have hid : ∀ deps : List Kernel, rewriteStep [] o a deps = deps := by
    intro deps
    induction deps with
    | nil => rfl
    | cons k ks ih => rw [rewriteStep, ih]
  intro own
  induction own with
  | nil =>
    intro deps
    simp only [List.nil_append, List.map_nil]
    exact hid deps
  | cons ko own' ih =>
    intro deps
    rw [List.cons_append, rewriteStep, ih deps, List.map_cons, List.cons_append]

/-- After rewriting, a kernel that contained the non-atomic variant no
longer references it. -/
theorem rewriteKernelArgs_not_mem (o a : KernelArg) (k : Kernel)
    (hoa : o ≠ a) : o ∉ (rewriteKernelArgs o a k).args := by
  unfold rewriteKernelArgs
  simp only [List.mem_map, not_exists]
  rintro x ⟨hx, hxo⟩
  by_cases h : x = o
  · rw [if_pos h] at hxo
    exact hoa hxo.symm
  · rw [if_neg h] at hxo
    exact h hxo

/-- Hoisting rewrites each kernel independently: a kernel either stays or
has its LOCAL temporaries migrated. -/
theorem hoistStep_kernels_map : ∀ (ks : List Kernel) (temps : List TempVar),
    (hoistStep ks temps).2.1 = ks.map (fun k =>
      let lt := k.temps.filter (fun t => t.scope = .loc)
      if lt.isEmpty then k else migrateLocals k lt) := by
  intro ks
  induction ks with
  | nil => intro temps; rfl
  | cons k ks' ih =>
    intro temps
    simp only [hoistStep, List.map_cons]
    split
    · next hlt => simp only [hlt, if_true, ih]
    · next hlt => simp only [hlt, if_false, ih, Bool.false_eq_true]

/-- The hoisted local list gathers exactly the kernels' LOCAL
temporaries, in kernel order. -/
theorem hoistStep_locs : ∀ (ks : List Kernel) (temps : List TempVar),
    (hoistStep ks temps).1 =
      (ks.map (fun k => k.temps.filter (fun t => t.scope = .loc))).flatten := by
  intro ks
  induction ks with
  | nil => intro temps; rfl
  | cons k ks' ih =>
    intro temps
    simp only [hoistStep, List.map_cons, List.flatten_cons]
    split
    · next hlt =>
      rw [List.isEmpty_iff.mp hlt]
      simp only [List.nil_append, ih]
    · next hlt => simp only [ih]

/-- Hoisting only removes entries from the deduplicated temporaries. -/
theorem hoistStep_temps_sublist : ∀ (ks : List Kernel) (temps : List TempVar),
    (hoistStep ks temps).2.2.Sublist temps := by
  intro ks
  induction ks with
  | nil => intro temps; exact List.Sublist.refl temps
  | cons k ks' ih =>
    intro temps
    simp only [hoistStep]
    split
    · exact ih temps
    · exact (ih _).trans (List.filter_sublist temps)

/-- Migration can only add LOCAL-space arguments. -/
theorem migrateLocals_not_mem (k : Kernel) (lt : List TempVar)
    (x : KernelArg) (hx : x ∉ k.args) (hl : x.isLocal = false) :
    x ∉ (migrateLocals k lt).args := by
  unfold migrateLocals
  simp only [List.mem_append, not_or]
  refine ⟨hx, ?_⟩
  simp only [List.mem_map, not_exists]
  rintro t ⟨_, ht⟩
  rw [← ht] at hl
  cases hl

/-- Strengthen a pointwise relation using membership on the left. -/
theorem forall2_strengthen {α β : Type} {R S : α → β → Prop} :
    ∀ {ns : List α} {cs : List β}, List.Forall₂ R ns cs →
      (∀ m ∈ ns, ∀ c, R m c → S m c) → List.Forall₂ S ns cs := by
  intro ns cs h
  induction h with
  | nil => intro _; exact .nil
  | cons hrc _ ih =>
    intro hstr
    exact .cons (hstr _ (by simp) _ hrc)
      (ih (fun m hm c hc => hstr m (by simp [hm]) c hc))

/-- The resolution fold over a name set containing exactly one collision
— an atomicity pair `x`/`y` — resolves that name to the atomic variant
`y`, applies the own-kernel rewrite once, and passes every other
(singleton) name through unchanged. -/
theorem resolveFold_one_pair (own : List Kernel) (A : List KernelArg)
    (x y : KernelArg) (n : String) (hx : x.atomic = false)
    (hy : y.atomic = true) (hat : atomify x = atomify y)
    (hvar : variantsOf A n = [x, y] ∨ variantsOf A n = [y, x]) :
    ∀ (ns : List String) (kd₀ : List KernelArg) (ks₀ : List Kernel),
      ns.Nodup → n ∈ ns →
      (∀ m ∈ ns, m ≠ n → ∃ v, variantsOf A m = [v]) →
      ∃ canons,
        resolveFold own A ns kd₀ ks₀ = .ok (kd₀ ++ canons, rewriteStep own x y ks₀)
        ∧ List.Forall₂ (fun m c => (m = n ∧ c = y) ∨
            (m ≠ n ∧ variantsOf A m = [c])) ns canons := by
  intro ns
  induction ns with
  | nil =>
    intro kd₀ ks₀ _ hn _
    cases hn
  | cons m₀ ns' ih =>
    intro kd₀ ks₀ hnd hn hsing
    obtain ⟨hm₀, hnd'⟩ := List.nodup_cons.mp hnd
    by_cases hm : m₀ = n
    · subst hm
      have hok : resolveName own (variantsOf A m₀) ks₀ =
          .ok (y, rewriteStep own x y ks₀) := by
        rcases hvar with hv | hv <;> rw [hv]
        · exact (resolveName_pair_atomic own ks₀ x y hx hy hat).1
        · exact (resolveName_pair_atomic own ks₀ x y hx hy hat).2
      obtain ⟨canons', hfold, hfa⟩ :=
        resolveFold_singletons own A ns' (kd₀ ++ [y]) (rewriteStep own x y ks₀)
          (fun m hm => hsing m (List.mem_cons_of_mem m₀ hm)
            (fun heq => hm₀ (heq ▸ hm)))
      refine ⟨y :: canons', ?_, ?_⟩
      · simp only [resolveFold, hok]
        rw [hfold]
        simp [List.append_assoc]
      · refine List.Forall₂.cons (Or.inl ⟨rfl, rfl⟩)
          (forall2_strengthen hfa ?_)
        intro m hm c hc
        exact Or.inr ⟨fun heq => hm₀ (heq ▸ hm), hc⟩
    · obtain ⟨v, hv⟩ := hsing m₀ (by simp) hm
      obtain ⟨canons', hfold, hfa⟩ := ih (kd₀ ++ [v]) ks₀ hnd'
        (by rcases List.mem_cons.mp hn with h' | h'
            · exact absurd h'.symm hm
            · exact h')
        (fun m hmm hne => hsing m (List.mem_cons_of_mem m₀ hmm) hne)
      refine ⟨v :: canons', ?_, List.Forall₂.cons (Or.inr ⟨hm, hv⟩) hfa⟩
      simp only [resolveFold, hv, resolveName_singleton]
      rw [hfold]
      simp [List.append_assoc]

/-- A left member of a `Forall₂` has a related right member. -/
theorem forall2_mem_left {α β : Type} {R : α → β → Prop} :
    ∀ {ns : List α} {cs : List β}, List.Forall₂ R ns cs →
      ∀ m ∈ ns, ∃ c ∈ cs, R m c := by
  intro ns cs h
  induction h with
  | nil => intro m hm; cases hm
  | cons hrc _ ih =>
    intro m hm
    rcases List.mem_cons.mp hm with rfl | hm'
    · exact ⟨_, by simp, hrc⟩
    · obtain ⟨c, hc, hr⟩ := ih m hm'
      exact ⟨c, List.mem_cons_of_mem _ hc, hr⟩

/-- A right member of a `Forall₂` has a related left member. -/
theorem forall2_mem_right {α β : Type} {R : α → β → Prop} :
    ∀ {ns : List α} {cs : List β}, List.Forall₂ R ns cs →
      ∀ c ∈ cs, ∃ m ∈ ns, R m c := by
  intro ns cs h
  induction h with
  | nil => intro c hc; cases hc
  | cons hrc _ ih =>
    intro c hc
    rcases List.mem_cons.mp hc with rfl | hc'
    · exact ⟨_, by simp, hrc⟩
    · obtain ⟨m, hm, hr⟩ := ih c hc'
      exact ⟨m, List.mem_cons_of_mem _ hm, hr⟩

/-- C2 (amended: only the generator's own kernels are rewritten — the
dependency kernels appended to the processed collection keep the
non-atomic object): when exactly one name carries two distinct variants
and they differ only in atomicity, `_process_args` succeeds, keeps the
atomic variant as the single canonical argument of that name, and no
kernel among the generator's own kernels still references the non-atomic
variant. -/
theorem c2_atomic_pair_resolution (hoist : Bool) (own deps : List Kernel)
    (extra : List ExtraDatum) (x y : KernelArg) (n : String)
    (ts : List TempVar) (hx : x.atomic = false) (hy : y.atomic = true)
    (hat : atomify x = atomify y) (hxl : x.isLocal = false)
    (hvar : variantsOf (gatherArgs (own ++ deps) extra) n = [x, y] ∨
            variantsOf (gatherArgs (own ++ deps) extra) n = [y, x])
    (hsing : ∀ m ∈ (gatherArgs (own ++ deps) extra).map (·.name), m ≠ n →
      (variantsOf (gatherArgs (own ++ deps) extra) m).length ≤ 1)
    (htemps : dedupTemps
        (gatherTemps (rewriteStep own x y (own ++ deps)) extra) = .ok ts) :
    ∃ r, processArgs hoist own deps extra = .ok r
      ∧ (y ∈ r.args ∨ y ∈ r.valueargs)
      ∧ (∀ a, (a ∈ r.args ∨ a ∈ r.valueargs) → a.name = n → a = y)
      ∧ ∀ k ∈ r.kernels.take own.length, x ∉ k.args := by
  set A := gatherArgs (own ++ deps) extra with hA
  have hxA : x ∈ variantsOf A n := by
    rcases hvar with hv | hv <;> rw [hv] <;> simp
  have hnmem : n ∈ A.map (·.name) := by
    obtain ⟨hxa, hxn⟩ := (mem_variantsOf x A n).mp hxA
    exact List.mem_map.mpr ⟨x, hxa, hxn⟩
  have hnns : n ∈ sortedDedup (A.map (·.name)) := (mem_sortedDedup n _).mpr hnmem
  have hnodup : (sortedDedup (A.map (·.name))).Nodup :=
    strictSorted_nodup _ (sortedDedup_pairwise _)
  have hsing' : ∀ m ∈ sortedDedup (A.map (·.name)), m ≠ n →
      ∃ v, variantsOf A m = [v] := by
    intro m hm hne
    have hnn : variantsOf A m ≠ [] :=
      variantsOf_ne_nil A m ((mem_sortedDedup m _).mp hm)
    have hle := hsing m ((mem_sortedDedup m _).mp hm) hne
    rcases hv : variantsOf A m with _ | ⟨v, _ | ⟨w, tl⟩⟩
    · exact absurd hv hnn
    · exact ⟨v, rfl⟩
    · rw [hv] at hle
      simp at hle
  obtain ⟨canons, hfold, hfa⟩ :=
    resolveFold_one_pair own A x y n hx hy hat hvar
      (sortedDedup (A.map (·.name))) [] (own ++ deps) hnodup hnns hsing'
  have hxy : x ≠ y := by
    intro h
    rw [h, hy] at hx
    cases hx
  -- the canonical entry facts
  have hyc : y ∈ canons := by
    obtain ⟨c, hc, hr⟩ := forall2_mem_left hfa n hnns
    rcases hr with ⟨_, rfl⟩ | ⟨hne, _⟩
    · exact hc
    · exact absurd rfl hne
  have huniq : ∀ a ∈ canons, a.name = n → a = y := by
    intro a ha hname
    obtain ⟨m, _, hr⟩ := forall2_mem_right hfa a ha
    rcases hr with ⟨_, rfl⟩ | ⟨hne, hv⟩
    · rfl
    · have : a ∈ variantsOf A m := by
        rw [hv]
        simp
      exact absurd (hname ▸ variantsOf_name a A m this) (Ne.symm hne)
  -- own kernels after rewrite and hoist
  have hks : rewriteStep own x y (own ++ deps) =
      own.map (fun k => if x ∈ k.args then rewriteKernelArgs x y k else k)
        ++ deps := rewriteStep_own_append x y own deps
  have hownclean : ∀ k ∈ (own.map (fun k =>
      if x ∈ k.args then rewriteKernelArgs x y k else k)), x ∉ k.args := by
    intro k hk
    obtain ⟨ko, _, rfl⟩ := List.mem_map.mp hk
    by_cases hmem : x ∈ ko.args
    · rw [if_pos hmem]
      exact rewriteKernelArgs_not_mem x y ko hxy
    · rw [if_neg hmem]
      exact hmem
  -- assemble the run
  unfold processArgs
  dsimp only
  rw [← hA, hfold]
  dsimp only
  rw [htemps]
  dsimp only [partitionP]
  refine ⟨_, rfl, ?_, ?_, ?_⟩
  · by_cases hv : y.isValue
    · right
      exact List.mem_filter.mpr ⟨hyc, by simp [hv]⟩
    · left
      exact List.mem_filter.mpr ⟨hyc, by simp [hv]⟩
  · intro a ha hname
    have hac : a ∈ canons := by
      rcases ha with h' | h' <;> exact List.mem_of_mem_filter h'
    exact huniq a hac hname
  · intro k hk
    by_cases hh : hoist
    · rw [if_pos (by simpa using hh)] at hk
      rw [hoistStep_kernels_map, hks, List.map_append] at hk
      rw [List.take_append_of_le_length (by simp)] at hk
      rw [← List.map_take, List.take_of_length_le (by simp)] at hk
      obtain ⟨k0, hk0, rfl⟩ := List.mem_map.mp hk
      have hx0 : x ∉ k0.args := hownclean k0 hk0
      dsimp only
      split
      · exact hx0
      · exact migrateLocals_not_mem k0 _ x hx0 hxl
    · rw [if_neg (by simpa using hh)] at hk
      rw [hks] at hk
      rw [List.take_append_of_le_length (by simp)] at hk
      rw [List.take_of_length_le (by simp)] at hk
      exact hownclean k hk

/-- C2 counterexample: the generator's own kernel uses the atomic
variant, a dependency kernel the non-atomic one — the only collision, of
exactly two variants differing only in atomicity.  Resolution succeeds
and keeps the atomic variant canonical, but the dependency kernel in the
processed collection still references the non-atomic object (the rewrite
loop iterates `self.kernels` only), contradicting the claim. -/
theorem c2_counterexample :
    processArgs true [kOwn] [kDep] [] =
      .ok ⟨[kOwn, kDep], [kaAt], [], [], [], []⟩
    ∧ kaNon ∈ kDep.args
    ∧ kaNon.atomic = false ∧ kaAt.atomic = true
    ∧ atomify kaNon = atomify kaAt ∧ kaNon ≠ kaAt := by
  refine ⟨by rfl, by decide, by decide, by decide, by decide, by decide⟩

/-- Inversion of a successful `_process_args` run into its intermediate
values. -/
theorem processArgs_ok_inv (hoist : Bool) (own deps : List Kernel)
    (extra : List ExtraDatum) (r : PAResult)
    (h : processArgs hoist own deps extra = .ok r) :
    ∃ kd ks ts,
      resolveFold own (gatherArgs (own ++ deps) extra)
        (sortedDedup ((gatherArgs (own ++ deps) extra).map (·.name))) []
        (own ++ deps) = .ok (kd, ks)
      ∧ dedupTemps (gatherTemps ks extra) = .ok ts
      ∧ r.args = kd.filter (fun a => !a.isValue)
      ∧ r.valueargs = kd.filter (fun a => a.isValue)
      ∧ r.readonly = readonlyOf ks
      ∧ r.kernels = (if hoist then hoistStep ks ts else ([], ks, ts)).2.1
      ∧ r.locs = (if hoist then hoistStep ks ts else ([], ks, ts)).1
      ∧ r.constants =
          ((if hoist then hoistStep ks ts else ([], ks, ts)).2.2).filter
            (·.readOnly) := by
  unfold processArgs at h
  dsimp only at h
  rcases hf : resolveFold own (gatherArgs (own ++ deps) extra)
      (sortedDedup ((gatherArgs (own ++ deps) extra).map (·.name))) []
      (own ++ deps) with e | ⟨kd, ks⟩ <;> rw [hf] at h
  · simp at h
  · dsimp only at h
    rcases ht : dedupTemps (gatherTemps ks extra) with e | ts <;> rw [ht] at h
    · simp at h
    · dsimp only [partitionP] at h
      cases h
      exact ⟨kd, ks, ts, rfl, ht, rfl, rfl, rfl, rfl, rfl, rfl⟩

/-- A `Forall₂` whose relation pins a projection gives a map equality. -/
theorem forall2_map_eq {α β : Type} {R : α → β → Prop} (f : β → α) :
    ∀ {ns : List α} {cs : List β}, List.Forall₂ R ns cs →
      (∀ m c, R m c → f c = m) → cs.map f = ns := by
  intro ns cs h
  induction h with
  | nil => intro _; rfl
  | cons hrc _ ih =>
    intro hf
    simp only [List.map_cons, ih hf, hf _ _ hrc]

/-- The canonical `kernel_data` list carries exactly the sorted name set,
in order. -/
theorem resolveFold_kd_names (own : List Kernel) (A : List KernelArg)
    (kd : List KernelArg) (ks : List Kernel)
    (deps₀ : List Kernel)
    (h : resolveFold own A (sortedDedup (A.map (·.name))) [] (own ++ deps₀) =
      .ok (kd, ks)) :
    kd.map (·.name) = sortedDedup (A.map (·.name)) := by
  obtain ⟨canons, hkd, hfa⟩ := resolveFold_ok_inv own A _ [] _ kd ks h
  rw [hkd]
  simp only [List.nil_append]
  exact forall2_map_eq _ hfa (fun m c hc => variantsOf_name c A m hc.1)

/-- The deduplicated temporaries extend the accumulator by entries whose
names form a subsequence of the scanned name list. -/
theorem dedupTemps_go_names (copy : List TempVar) :
    ∀ (ns : List String) (acc out : List TempVar),
      dedupTemps.go copy ns acc = .ok out →
      ∃ ext, out = acc ++ ext ∧ (ext.map (·.name)).Sublist ns := by
  intro ns
  induction ns with
  | nil =>
    intro acc out h
    simp only [dedupTemps.go] at h
    cases h
    exact ⟨[], by simp, by simp⟩
  | cons n ns' ih =>
    intro acc out h
    simp only [dedupTemps.go] at h
    rcases hsn : copy.filter (fun t => t.name = n) with _ | ⟨t, tl⟩ <;>
      rw [hsn] at h
    · obtain ⟨ext, hout, hsub⟩ := ih acc out h
      exact ⟨ext, hout, hsub.cons n⟩
    · dsimp only at h
      split at h
      · obtain ⟨ext, hout, hsub⟩ := ih (acc ++ [t]) out h
        refine ⟨t :: ext, by simpa [List.append_assoc] using hout, ?_⟩
        have htn : t.name = n := by
          have : t ∈ copy.filter (fun t => t.name = n) := by
            rw [hsn]
            simp
          simpa using (List.mem_filter.mp this).2
        simpa [htn] using hsub.cons₂ n
      · simp at h

/-- C10: the canonical argument list, the value-argument list and the
deduplicated constant-temporary list returned by `_process_args` are
strictly sorted by name (hence determined by the name set alone,
independent of the declaration order in the input kernels). -/
theorem c10_canonical_lists_sorted (hoist : Bool) (own deps : List Kernel)
    (extra : List ExtraDatum) (r : PAResult)
    (h : processArgs hoist own deps extra = .ok r) :
    List.Pairwise (fun a b => a.name < b.name) r.args
    ∧ List.Pairwise (fun a b => a.name < b.name) r.valueargs
    ∧ List.Pairwise (fun a b : TempVar => a.name < b.name) r.constants := by
  obtain ⟨kd, ks, ts, hf, ht, hargs, hval, _, _, _, hconst⟩ :=
    processArgs_ok_inv hoist own deps extra r h
  have hkd : List.Pairwise (fun a b : KernelArg => a.name < b.name) kd := by
    have hnames := resolveFold_kd_names own (gatherArgs (own ++ deps) extra)
      kd ks deps hf
    have hsorted := sortedDedup_pairwise
      ((gatherArgs (own ++ deps) extra).map (·.name))
    rw [← hnames] at hsorted
    exact (List.pairwise_map).mp hsorted
  have hts : List.Pairwise (fun a b : TempVar => a.name < b.name) ts := by
    unfold dedupTemps at ht
    obtain ⟨ext, hout, hsub⟩ := dedupTemps_go_names (gatherTemps ks extra) _ [] ts ht
    have hsorted := sortedDedup_pairwise ((gatherTemps ks extra).map (·.name))
    have := hsorted.sublist hsub
    rw [hout]
    simp only [List.nil_append]
    exact (List.pairwise_map).mp this
  refine ⟨?_, ?_, ?_⟩
  · rw [hargs]
    exact hkd.sublist (List.filter_sublist kd)
  · rw [hval]
    exact hkd.sublist (List.filter_sublist kd)
  · rw [hconst]
    refine (hts.sublist ?_).sublist (List.filter_sublist _)
    by_cases hh : hoist
    · rw [if_pos hh]
      exact hoistStep_temps_sublist ks ts
    · rw [if_neg hh]

/-- C2 witness: the single collision `rates` (non-atomic in the own
kernel, atomic in the dependency kernel) resolves to the atomic variant
and the own kernel is rewritten. -/
theorem c2_witness :
    kaNon.atomic = false ∧ kaAt.atomic = true
    ∧ atomify kaNon = atomify kaAt ∧ kaNon.isLocal = false
    ∧ (variantsOf (gatherArgs ([kOwn2] ++ [kDep2]) []) "rates" = [kaNon, kaAt] ∨
        variantsOf (gatherArgs ([kOwn2] ++ [kDep2]) []) "rates" = [kaAt, kaNon])
    ∧ (∀ m ∈ (gatherArgs ([kOwn2] ++ [kDep2]) []).map (·.name), m ≠ "rates" →
        (variantsOf (gatherArgs ([kOwn2] ++ [kDep2]) []) m).length ≤ 1)
    ∧ dedupTemps
        (gatherTemps (rewriteStep [kOwn2] kaNon kaAt ([kOwn2] ++ [kDep2])) []) = .ok []
    ∧ (∃ r, processArgs true [kOwn2] [kDep2] [] = .ok r
        ∧ (kaAt ∈ r.args ∨ kaAt ∈ r.valueargs)
        ∧ (∀ a, (a ∈ r.args ∨ a ∈ r.valueargs) → a.name = "rates" → a = kaAt)
        ∧ ∀ k ∈ r.kernels.take ([kOwn2] : List Kernel).length, kaNon ∉ k.args) :=
  ⟨by decide, by decide, by decide, by decide, by decide, by decide, by rfl,
    c2_atomic_pair_resolution true [kOwn2] [kDep2] [] kaNon kaAt "rates" []
      (by decide) (by decide) (by decide) (by decide) (by decide) (by decide)
      (by rfl)⟩

/-- C3 witness: an atomic `rates` and an `f32` `rates` conflict in base
type; `_process_args` raises the conflict error naming the variants. -/
theorem c3_witness :
    2 ≤ (variantsOf (gatherArgs ([kOwn] ++ [kConf]) []) "rates").length
    ∧ ¬ differOnlyInAtomicity
        (variantsOf (gatherArgs ([kOwn] ++ [kConf]) []) "rates")
    ∧ ∃ m, 2 ≤ (variantsOf (gatherArgs ([kOwn] ++ [kConf]) []) m).length
        ∧ ¬ differOnlyInAtomicity (variantsOf (gatherArgs ([kOwn] ++ [kConf]) []) m)
        ∧ processArgs false [kOwn] [kConf] [] =
            .error (.conflict (variantsOf (gatherArgs ([kOwn] ++ [kConf]) []) m)) :=
  ⟨by decide, by decide,
    c3_unresolvable_conflict_fatal false [kOwn] [kConf] [] "rates"
      (by decide) (by decide)⟩

/-- C10 witness: a concrete run returns name-sorted canonical lists. -/
theorem c10_witness :
    processArgs true [kOwn] [] [] =
      .ok ⟨[kOwn], [kaAt], [], [], [], []⟩
    ∧ (List.Pairwise (fun a b : KernelArg => a.name < b.name)
        (PAResult.args ⟨[kOwn], [kaAt], [], [], [], []⟩)
      ∧ List.Pairwise (fun a b : KernelArg => a.name < b.name)
          (PAResult.valueargs ⟨[kOwn], [kaAt], [], [], [], []⟩)
      ∧ List.Pairwise (fun a b : TempVar => a.name < b.name)
          (PAResult.constants ⟨[kOwn], [kaAt], [], [], [], []⟩)) :=
  ⟨by rfl, c10_canonical_lists_sorted true [kOwn] [] []
    ⟨[kOwn], [kaAt], [], [], [], []⟩ (by rfl)⟩

/-- In a list with duplicate-free keys, filtering by a member's key
yields exactly that member. -/
theorem filter_key_eq_singleton {α : Type} [DecidableEq α] (f : α → String) :
    ∀ (l : List α) (a : α), (l.map f).Nodup → a ∈ l →
      l.filter (fun x => f x = f a) = [a] := by
  intro l
  induction l with
  | nil =>
    intro a _ ha
    cases ha
  | cons t rest ih =>
    intro a hnd ha
    have hnd0 : f t ∉ rest.map f ∧ (rest.map f).Nodup :=
      List.nodup_cons.mp (by simpa using hnd)
    obtain ⟨hni, hnd'⟩ := hnd0
    rcases List.mem_cons.mp ha with rfl | ha'
    · have hrest : rest.filter (fun x => f x = f a) = [] := by
        rw [List.filter_eq_nil_iff]
        intro x hx
        simp only [decide_eq_true_eq]
        intro hfx
        exact hni (hfx ▸ List.mem_map_of_mem f hx)
      simp [List.filter_cons, hrest]
    · have hfa : ¬ f t = f a := by
        intro h
        exact hni (h ▸ List.mem_map_of_mem f ha')
      simp only [List.filter_cons, decide_eq_true_eq, hfa, if_false]
      exact ih a hnd' ha'

/-- Two lists with strictly key-sorted entries and equal membership are
equal. -/
theorem strictSorted_key_unique {α : Type} (f : α → String) :
    ∀ (l₁ l₂ : List α), List.Pairwise (fun a b => f a < f b) l₁ →
      List.Pairwise (fun a b => f a < f b) l₂ →
      (∀ s, s ∈ l₁ ↔ s ∈ l₂) → l₁ = l₂ := by
  intro l₁
  induction l₁ with
  | nil =>
    intro l₂ _ _ hm
    cases l₂ with
    | nil => rfl
    | cons b bs => exact absurd ((hm b).mpr (by simp)) (by simp)
  | cons a as ih =>
    intro l₂ h₁ h₂ hm
    cases l₂ with
    | nil => exact absurd ((hm a).mp (by simp)) (by simp)
    | cons b bs =>
      obtain ⟨ha, has⟩ := List.pairwise_cons.mp h₁
      obtain ⟨hb, hbs⟩ := List.pairwise_cons.mp h₂
      have hab : a = b := by
        rcases List.mem_cons.mp ((hm a).mp (by simp)) with h' | h'
        · exact h'
        · rcases List.mem_cons.mp ((hm b).mpr (by simp)) with h'' | h''
          · exact h''.symm
          · exact absurd (lt_trans (hb a h') (ha b h'')) (lt_irrefl (f b))
      subst hab
      have hms : ∀ s, s ∈ as ↔ s ∈ bs := by
        intro s
        constructor
        · intro hs
          rcases List.mem_cons.mp ((hm s).mp (List.mem_cons_of_mem a hs)) with rfl | h'
          · exact absurd (ha s hs) (lt_irrefl (f s))
          · exact h'
        · intro hs
          rcases List.mem_cons.mp ((hm s).mpr (List.mem_cons_of_mem a hs)) with rfl | h'
          · exact absurd (hb s hs) (lt_irrefl (f s))
          · exact h'
      rw [ih bs has hbs hms]

/-- `sortedDedup` fixes strictly-sorted lists. -/
theorem sortedDedup_eq_self (l : List String)
    (h : List.Pairwise (· < ·) l) : sortedDedup l = l :=
  strictSorted_unique (sortedDedup l) l (sortedDedup_pairwise l) h
    (fun s => mem_sortedDedup s l)

/-- The per-name canonical pick fixes strictly name-sorted lists. -/
theorem tempsCanon_of_sorted : ∀ l : List TempVar,
    List.Pairwise (fun a b : TempVar => a.name < b.name) l →
    tempsCanon l = l := by
  intro l
  induction l with
  | nil => intro _; rfl
  | cons t rest ih =>
    intro h
    obtain ⟨hhead, hrest⟩ := List.pairwise_cons.mp h
    have hsorted : List.Pairwise (· < ·) ((t :: rest).map (·.name)) := by
      simpa [List.pairwise_map] using h
    unfold tempsCanon
    rw [sortedDedup_eq_self _ hsorted]
    simp only [List.map_cons, List.filterMap_cons]
    have hfirst : (t :: rest).filter (fun x => x.name = t.name) = [t] := by
      have hnames : ((t :: rest).map (·.name)).Nodup := strictSorted_nodup _ hsorted
      exact filter_key_eq_singleton (·.name) (t :: rest) t hnames (by simp)
    rw [hfirst]
    simp only [List.head?_cons]
    have hcongr : ∀ m ∈ rest.map (·.name),
        ((t :: rest).filter (fun x => x.name = m)).head? =
          (rest.filter (fun x => x.name = m)).head? := by
      intro m hmm
      obtain ⟨u, hu, rfl⟩ := List.mem_map.mp hmm
      have : ¬ t.name = u.name := ne_of_lt (hhead u hu)
      simp [List.filter_cons, this]
    have ht2 : List.filterMap
        (fun m => ((t :: rest).filter (fun x => x.name = m)).head?)
        (rest.map (·.name)) = List.filterMap
        (fun m => (rest.filter (fun x => x.name = m)).head?)
        (rest.map (·.name)) := List.filterMap_congr hcongr
    rw [ht2]
    have ih2 := ih hrest
    unfold tempsCanon at ih2
    rw [sortedDedup_eq_self _ (by simpa [List.pairwise_map] using hrest)] at ih2
    rw [ih2]

/-- Elements surviving temporary deduplication come from the accumulator
or the scanned copy. -/
theorem dedupTemps_go_mem (copy : List TempVar) :
    ∀ (ns : List String) (acc out : List TempVar),
      dedupTemps.go copy ns acc = .ok out →
      ∀ t ∈ out, t ∈ acc ∨ t ∈ copy := by
  intro ns
  induction ns with
  | nil =>
    intro acc out h t ht
    simp only [dedupTemps.go] at h
    cases h
    exact Or.inl ht
  | cons n ns' ih =>
    intro acc out h t ht
    simp only [dedupTemps.go] at h
    rcases hsn : copy.filter (fun x => x.name = n) with _ | ⟨u, us⟩ <;>
      rw [hsn] at h
    · exact ih acc out h t ht
    · dsimp only at h
      split at h
      · rcases ih (acc ++ [u]) out h t ht with hacc | hcopy
        · rcases List.mem_append.mp hacc with h' | h'
          · exact Or.inl h'
          · simp only [List.mem_singleton] at h'
            subst h'
            have hu : t ∈ copy.filter (fun x => x.name = n) := by
              rw [hsn]
              simp
            exact Or.inr (List.mem_filter.mp hu).1
        · exact Or.inr hcopy
      · simp at h

/-- For duplicate-free keys, the deduplication fold returns the head of
every per-name filter in scan order. -/
theorem dedupTemps_go_canon (copy : List TempVar)
    (hnd : (copy.map (·.name)).Nodup) :
    ∀ (ns : List String) (acc : List TempVar),
      dedupTemps.go copy ns acc = .ok (acc ++ ns.filterMap
        (fun m => (copy.filter (fun t => t.name = m)).head?)) := by
  intro ns
  induction ns with
  | nil =>
    intro acc
    simp [dedupTemps.go]
  | cons n ns' ih =>
    intro acc
    by_cases hex : ∃ t ∈ copy, t.name = n
    · obtain ⟨t, htc, htn⟩ := hex
      have hf : copy.filter (fun x => x.name = n) = [t] := by
        rw [← htn]
        exact filter_key_eq_singleton (·.name) copy t hnd htc
      simp only [dedupTemps.go, List.filterMap_cons, hf]
      simp only [List.all_nil, if_true, List.head?_cons]
      rw [ih (acc ++ [t])]
      simp [List.append_assoc]
    · have hf : copy.filter (fun x => x.name = n) = [] := by
        rw [List.filter_eq_nil_iff]
        intro x hx
        simp only [decide_eq_true_eq]
        exact fun hxn => hex ⟨x, hx, hxn⟩
      simp only [dedupTemps.go, List.filterMap_cons, hf]
      simp only [List.head?_nil]
      exact ih acc

/-- With duplicate-free names, deduplication succeeds and yields the
canonical (name-sorted, first-per-name) temporary list. -/
theorem dedupTemps_canon (copy : List TempVar)
    (hnd : (copy.map (·.name)).Nodup) :
    dedupTemps copy = .ok (tempsCanon copy) := by
  unfold dedupTemps tempsCanon
  rw [dedupTemps_go_canon copy hnd]
  simp

/-- With duplicate-free names, the canonical pick has the same members
as its input. -/
theorem tempsCanon_mem (l : List TempVar) (hnd : (l.map (·.name)).Nodup)
    (x : TempVar) : x ∈ tempsCanon l ↔ x ∈ l := by
  unfold tempsCanon
  constructor
  · intro hx
    obtain ⟨m, _, hm⟩ := List.mem_filterMap.mp hx
    rcases hf : l.filter (fun t => t.name = m) with _ | ⟨y, ys⟩ <;>
      rw [hf] at hm
    · cases hm
    · simp only [List.head?_cons, Option.some.injEq] at hm
      rw [← hm]
      have : y ∈ l.filter (fun t => t.name = m) := by
        rw [hf]
        simp
      exact (List.mem_filter.mp this).1
  · intro hx
    refine List.mem_filterMap.mpr ⟨x.name, ?_, ?_⟩
    · rw [mem_sortedDedup]
      exact List.mem_map_of_mem _ hx
    · rw [filter_key_eq_singleton (·.name) l x hnd hx]
      rfl

/-- The canonical pick is strictly sorted by name. -/
theorem tempsCanon_sorted (l : List TempVar) :
    List.Pairwise (fun a b : TempVar => a.name < b.name) (tempsCanon l) := by
  unfold tempsCanon
  rw [List.pairwise_filterMap]
  refine (sortedDedup_pairwise (l.map (·.name))).imp ?_
  intro m m' hmm c hc c' hc'
  have hcname : ∀ (k : String) (d : TempVar),
      d ∈ (l.filter (fun t => t.name = k)).head? → d.name = k := by
    intro k d hd
    rcases hf : l.filter (fun t => t.name = k) with _ | ⟨y, ys⟩ <;>
      rw [hf] at hd
    · cases hd
    · simp only [List.head?_cons, Option.mem_def, Option.some.injEq] at hd
      rw [← hd]
      have : y ∈ l.filter (fun t => t.name = k) := by
        rw [hf]
        simp
      simpa using (List.mem_filter.mp this).2
  rw [hcname m c hc, hcname m' c' hc']
  exact hmm

/-- Every gathered temporary passes the scope filter of lines 1247-1256. -/
theorem gatherTemps_scope (ks : List Kernel) (extra : List ExtraDatum)
    (t : TempVar) (h : t ∈ gatherTemps ks extra) :
    (!(t.scope = .priv : Bool) && !(t.scope = .auto : Bool)) = true := by
  unfold gatherTemps at h
  rcases List.mem_append.mp h with h' | h'
  · obtain ⟨l, hl, htl⟩ := List.mem_flatten.mp h'
    obtain ⟨k, _, hk⟩ := List.mem_map.mp hl
    rw [← hk] at htl
    exact (List.mem_filter.mp htl).2
  · obtain ⟨d, _, hd⟩ := List.mem_filterMap.mp h'
    rcases d with a | u
    · cases hd
    · dsimp only at hd
      split at hd
      · next hcond =>
        cases hd
        exact hcond
      · cases hd

/-- Membership characterisation of the read-only name set (lines
1240-1244). -/
theorem mem_readonlyOf (ks : List Kernel) (s : String) :
    s ∈ readonlyOf ks ↔ ∃ a ∈ (ks.map (·.args)).flatten,
      a.isValue = false ∧ a.name = s ∧ ∀ d ∈ ks, s ∉ d.written := by
  unfold readonlyOf
  rw [mem_sortedDedup]
  rw [List.mem_filterMap]
  constructor
  · rintro ⟨a, ha, hsome⟩
    split at hsome
    · next hcond =>
      simp only [Bool.and_eq_true, Bool.not_eq_true', List.all_eq_true] at hcond
      simp only [Option.some.injEq] at hsome
      refine ⟨a, ha, hcond.1, hsome, ?_⟩
      intro d hd hmem
      have hfalse := hcond.2 d hd
      rw [← hsome] at hmem
      have hc : d.written.contains a.name = true := List.elem_iff.mpr hmem
      rw [hfalse] at hc
      cases hc
    · cases hsome
  · rintro ⟨a, ha, hval, hname, hnw⟩
    refine ⟨a, ha, ?_⟩
    have hcond : (!a.isValue && ks.all fun d => !(d.written.contains a.name)) = true := by
      simp only [Bool.and_eq_true, Bool.not_eq_true', List.all_eq_true]
      refine ⟨hval, ?_⟩
      intro d hd
      have hnm : a.name ∉ d.written := hname ▸ hnw d hd
      cases hc : d.written.contains a.name
      · rfl
      · exact absurd (List.elem_iff.mp hc) hnm
    rw [if_pos hcond, hname]

/-- Successful name resolution either keeps the kernel list or rewrites
it with a pair of variants. -/
theorem resolveName_ks_inv (own ks ks' : List Kernel) (vs : List KernelArg)
    (c : KernelArg) (h : resolveName own vs ks = .ok (c, ks')) :
    ks' = ks ∨ ∃ o a, o ∈ vs ∧ a ∈ vs ∧ ks' = rewriteStep own o a ks := by
  unfold resolveName at h
  split at h
  · rcases vs with _ | ⟨v, _ | ⟨w, tl⟩⟩
    · cases h
    · cases h
      exact Or.inl rfl
    · cases h
  · rcases hf : List.find? (fun x => x.atomic) vs with _ | a <;> rw [hf] at h
    · cases h
    · dsimp only at h
      split at h
      · cases h
      · rcases hg : List.find? (fun x => !(x = a : Bool)) vs with _ | o <;>
          rw [hg] at h
        · cases h
        · dsimp only at h
          split at h
          · simp only [Except.ok.injEq, Prod.mk.injEq] at h
            exact Or.inr ⟨o, a, List.mem_of_find?_eq_some hg,
              List.mem_of_find?_eq_some hf, h.2.symm⟩
          · cases h

/-- The argument-rewrite pass keeps every kernel argument inside a pool
containing the replacement and the original arguments. -/
theorem rewriteStep_args_sub (A : List KernelArg) (o a : KernelArg)
    (ha : a ∈ A) : ∀ (ks own : List Kernel),
    (∀ k ∈ own, ∀ x ∈ k.args, x ∈ A) →
    (∀ k ∈ ks, ∀ x ∈ k.args, x ∈ A) →
    ∀ k ∈ rewriteStep own o a ks, ∀ x ∈ k.args, x ∈ A := by
  intro ks
  induction ks with
  | nil =>
    intro own _ _ k hk
    rcases own with _ | ⟨ko, ownRest⟩ <;> cases hk
  | cons kk ksRest ih =>
    intro own hown hks k hk
    rcases own with _ | ⟨ko, ownRest⟩
    · rw [rewriteStep] at hk
      rcases List.mem_cons.mp hk with rfl | hk'
      · exact hks k (by simp)
      · exact ih [] (by intro k' hk'; cases hk') (fun k' hk' => hks k'
          (List.mem_cons_of_mem _ hk')) k hk'
    · rw [rewriteStep] at hk
      rcases List.mem_cons.mp hk with rfl | hk'
      · split
        · next hmem =>
          intro x hx
          unfold rewriteKernelArgs at hx
          obtain ⟨y, hy, hxy⟩ := List.mem_map.mp hx
          by_cases hyo : y = o
          · rw [if_pos hyo] at hxy
            exact hxy ▸ ha
          · rw [if_neg hyo] at hxy
            exact hxy ▸ hown ko (by simp) y hy
        · next hmem =>
          exact hks kk (by simp)
      · exact ih ownRest (fun k' hk' => hown k' (List.mem_cons_of_mem _ hk'))
          (fun k' hk' => hks k' (List.mem_cons_of_mem _ hk')) k hk'

/-- The resolution fold keeps every kernel argument inside the gathered
pool. -/
theorem resolveFold_args_sub (own : List Kernel) (A : List KernelArg)
    (hown : ∀ k ∈ own, ∀ x ∈ k.args, x ∈ A) :
    ∀ (ns : List String) (kd₀ : List KernelArg) (ks₀ : List Kernel)
      (kd' : List KernelArg) (ks' : List Kernel),
      (∀ k ∈ ks₀, ∀ x ∈ k.args, x ∈ A) →
      resolveFold own A ns kd₀ ks₀ = .ok (kd', ks') →
      ∀ k ∈ ks', ∀ x ∈ k.args, x ∈ A := by
  intro ns
  induction ns with
  | nil =>
    intro kd₀ ks₀ kd' ks' hks h
    simp only [resolveFold] at h
    cases h
    exact hks
  | cons n ns' ih =>
    intro kd₀ ks₀ kd' ks' hks h
    simp only [resolveFold] at h
    rcases hr : resolveName own (variantsOf A n) ks₀ with e | ⟨c, ks₁⟩ <;>
      rw [hr] at h
    · cases h
    · dsimp only at h
      have hks₁ : ∀ k ∈ ks₁, ∀ x ∈ k.args, x ∈ A := by
        rcases resolveName_ks_inv own ks₀ ks₁ _ c hr with rfl | ⟨o, a, _, hav, rfl⟩
        · exact hks
        · exact rewriteStep_args_sub A o a ((mem_variantsOf a A n).mp hav).1
            ks₀ own hown hks
      exact ih (kd₀ ++ [c]) ks₁ kd' ks' hks₁ h

/-- C9: argument resolution is idempotent.  If `_process_args` succeeds
with result `r`, and the resulting temporaries are canonical
(duplicate-free names across locals and constants, no LOCAL-space
constants), then running `_process_args` again on the single kernel
assembled from the resolved outputs reproduces the same canonical
partition: the same global arguments, local temporaries, read-only
names, constant temporaries and value arguments. -/
theorem c9_process_args_idempotent (hoist : Bool) (own deps : List Kernel)
    (extra : List ExtraDatum) (r : PAResult)
    (h : processArgs hoist own deps extra = .ok r)
    (hnames : ((r.locs ++ r.constants).map (·.name)).Nodup)
    (hscope : ∀ t ∈ r.constants, ¬ t.scope = Scope.loc) :
    ∃ r₂, processArgs hoist [resolvedKernelOf r] [] [] = .ok r₂
      ∧ r₂.args = r.args ∧ r₂.locs = r.locs ∧ r₂.readonly = r.readonly
      ∧ r₂.constants = r.constants ∧ r₂.valueargs = r.valueargs := by
  obtain ⟨kd, ks, ts, hf, ht, hargs, hval, hro, hker, hlocs, hconst⟩ :=
    processArgs_ok_inv hoist own deps extra r h
  have hkdnames : kd.map (·.name) =
      sortedDedup ((gatherArgs (own ++ deps) extra).map (·.name)) :=
    resolveFold_kd_names own _ kd ks deps hf
  have hkdsorted : List.Pairwise (fun a b : KernelArg => a.name < b.name) kd := by
    have := sortedDedup_pairwise ((gatherArgs (own ++ deps) extra).map (·.name))
    rw [← hkdnames] at this
    exact List.pairwise_map.mp this
  have hkdnodup : (kd.map (·.name)).Nodup := by
    rw [hkdnames]
    exact strictSorted_nodup _ (sortedDedup_pairwise _)
  have hmemargs : ∀ x : KernelArg, x ∈ r.args ↔ x ∈ kd ∧ x.isValue = false := by
    intro x
    rw [hargs, List.mem_filter]
    simp
  have hmemval : ∀ x : KernelArg, x ∈ r.valueargs ↔ x ∈ kd ∧ x.isValue = true := by
    intro x
    rw [hval, List.mem_filter]
  have hperm : (r.args ++ r.valueargs).Perm kd := by
    rw [hargs, hval]
    have h1 : kd.filter (fun a => a.isValue) =
        kd.filter (fun x => !(!x.isValue)) :=
      (List.filter_congr (fun x _ => by simp)).symm
    rw [h1]
    exact List.filter_append_perm (fun a => !a.isValue) kd
  have hA2nodup : ((r.args ++ r.valueargs).map (·.name)).Nodup :=
    ((hperm.map (·.name)).nodup_iff).mpr hkdnodup
  have hsing : ∀ m ∈ sortedDedup ((r.args ++ r.valueargs).map (·.name)),
      ∃ v, variantsOf (r.args ++ r.valueargs) m = [v] := by
    intro m hm
    rw [mem_sortedDedup] at hm
    obtain ⟨a, haA, ham⟩ := List.mem_map.mp hm
    refine ⟨a, ?_⟩
    unfold variantsOf
    rw [← ham]
    rw [filter_key_eq_singleton (·.name) _ a hA2nodup haA]
    rfl
  obtain ⟨canons, hrun, hfa₂⟩ :=
    resolveFold_singletons [resolvedKernelOf r] (r.args ++ r.valueargs)
      (sortedDedup ((r.args ++ r.valueargs).map (·.name))) []
      ([resolvedKernelOf r] ++ []) hsing
  have hcnames : canons.map (·.name) =
      sortedDedup ((r.args ++ r.valueargs).map (·.name)) :=
    forall2_map_eq _ hfa₂ (fun m c hc => variantsOf_name c _ m (by rw [hc]; simp))
  have hcsorted : List.Pairwise (fun a b : KernelArg => a.name < b.name) canons := by
    have := sortedDedup_pairwise ((r.args ++ r.valueargs).map (·.name))
    rw [← hcnames] at this
    exact List.pairwise_map.mp this
  have hmemc : ∀ x : KernelArg, x ∈ canons ↔ x ∈ r.args ++ r.valueargs := by
    intro x
    constructor
    · intro hx
      obtain ⟨m, _, heq⟩ := forall2_mem_right hfa₂ x hx
      have hxv : x ∈ variantsOf (r.args ++ r.valueargs) m := by
        rw [heq]
        simp
      exact ((mem_variantsOf x _ m).mp hxv).1
    · intro hx
      have hm : x.name ∈ sortedDedup ((r.args ++ r.valueargs).map (·.name)) := by
        rw [mem_sortedDedup]
        exact List.mem_map_of_mem _ hx
      obtain ⟨c, hc, heq⟩ := forall2_mem_left hfa₂ x.name hm
      have hxv : x ∈ variantsOf (r.args ++ r.valueargs) x.name :=
        (mem_variantsOf x _ x.name).mpr ⟨hx, rfl⟩
      rw [heq] at hxv
      simp only [List.mem_singleton] at hxv
      exact hxv.symm ▸ hc
  have hargs₂ : canons.filter (fun x => !x.isValue) = r.args := by
    apply strictSorted_key_unique (·.name)
    · exact List.Pairwise.filter _ hcsorted
    · rw [hargs]
      exact List.Pairwise.filter _ hkdsorted
    · intro x
      rw [List.mem_filter, hmemc x]
      constructor
      · rintro ⟨hx, hnv⟩
        have hnv' : (!x.isValue) = true := hnv
        rw [Bool.not_eq_true'] at hnv'
        rcases List.mem_append.mp hx with h' | h'
        · exact h'
        · have hv := ((hmemval x).mp h').2
          rw [hv] at hnv'
          cases hnv'
      · intro hx
        have hx' := (hmemargs x).mp hx
        exact ⟨List.mem_append_left _ hx, by simp [hx'.2]⟩
  have hval₂ : canons.filter (fun x => x.isValue) = r.valueargs := by
    apply strictSorted_key_unique (·.name)
    · exact List.Pairwise.filter _ hcsorted
    · rw [hval]
      exact List.Pairwise.filter _ hkdsorted
    · intro x
      rw [List.mem_filter, hmemc x]
      constructor
      · rintro ⟨hx, hv⟩
        have hv' : x.isValue = true := hv
        rcases List.mem_append.mp hx with h' | h'
        · have hnv := ((hmemargs x).mp h').2
          rw [hnv] at hv'
          cases hv'
        · exact h'
      · intro hx
        exact ⟨List.mem_append_right _ hx, ((hmemval x).mp hx).2⟩
  have hwritten : ∀ s, s ∈ (resolvedKernelOf r).written ↔
      s ∈ r.args.map (·.name) ∧ s ∉ r.readonly := by
    intro s
    show s ∈ (r.args.map (·.name)).filter (fun n => !(r.readonly.contains n)) ↔ _
    rw [List.mem_filter]
    constructor
    · rintro ⟨h1, h2⟩
      have h2' : (!(r.readonly.contains s)) = true := h2
      rw [Bool.not_eq_true'] at h2'
      refine ⟨h1, fun hm => ?_⟩
      have hc : r.readonly.contains s = true := List.elem_iff.mpr hm
      rw [h2'] at hc
      cases hc
    · rintro ⟨h1, h2⟩
      refine ⟨h1, ?_⟩
      show (!(r.readonly.contains s)) = true
      rw [Bool.not_eq_true']
      cases hc : r.readonly.contains s
      · rfl
      · exact absurd (List.elem_iff.mp hc) h2
  have hA2flat : (([resolvedKernelOf r]).map (·.args)).flatten =
      r.args ++ r.valueargs := by
    simp [resolvedKernelOf]
  have hro₂ : readonlyOf ([resolvedKernelOf r] ++ []) = r.readonly := by
    show readonlyOf [resolvedKernelOf r] = r.readonly
    apply strictSorted_unique
    · unfold readonlyOf
      exact sortedDedup_pairwise _
    · rw [hro]
      unfold readonlyOf
      exact sortedDedup_pairwise _
    · intro s
      constructor
      · intro hs
        obtain ⟨a, ha, hvalf, hname, hnw⟩ := (mem_readonlyOf _ s).mp hs
        rw [hA2flat] at ha
        have haargs : a ∈ r.args := by
          rcases List.mem_append.mp ha with h' | h'
          · exact h'
          · have hv := ((hmemval a).mp h').2
            rw [hv] at hvalf
            cases hvalf
        have hsnw := hnw (resolvedKernelOf r) (by simp)
        rw [hwritten s] at hsnw
        by_cases hsro : s ∈ r.readonly
        · exact hsro
        · exact absurd ⟨hname ▸ List.mem_map_of_mem (·.name) haargs, hsro⟩ hsnw
      · intro hsro
        have hsro' := hsro
        rw [hro, mem_readonlyOf] at hsro'
        obtain ⟨a, ha, hvalf, hname, _⟩ := hsro'
        obtain ⟨l, hl, hal⟩ := List.mem_flatten.mp ha
        obtain ⟨k, hkks, hkl⟩ := List.mem_map.mp hl
        have hA_sub_init : ∀ k₁ ∈ own ++ deps, ∀ x ∈ k₁.args,
            x ∈ gatherArgs (own ++ deps) extra := by
          intro k₁ hk₁ x hx
          unfold gatherArgs
          exact List.mem_append_left _
            (List.mem_flatten.mpr ⟨k₁.args, List.mem_map_of_mem _ hk₁, hx⟩)
        have haA : a ∈ gatherArgs (own ++ deps) extra :=
          resolveFold_args_sub own _
            (fun k₁ hk₁ => hA_sub_init k₁ (List.mem_append_left _ hk₁))
            _ [] (own ++ deps) kd ks hA_sub_init hf k hkks a (by rw [hkl]; exact hal)
        have hanames : a.name ∈
            sortedDedup ((gatherArgs (own ++ deps) extra).map (·.name)) := by
          rw [mem_sortedDedup]
          exact List.mem_map_of_mem _ haA
        obtain ⟨canons₁, hkdeq, hfa₁⟩ := resolveFold_ok_inv own _ _ [] _ kd ks hf
        rw [List.nil_append] at hkdeq
        obtain ⟨c, hcmem, hcP⟩ := forall2_mem_left hfa₁ a.name hanames
        have haV : a ∈ variantsOf (gatherArgs (own ++ deps) extra) a.name :=
          (mem_variantsOf a _ a.name).mpr ⟨haA, rfl⟩
        have hcname : c.name = s := by
          have hac := (hcP.2 a haV).1
          rw [← hac, hname]
        have hcval : c.isValue = false := by
          have hac := (hcP.2 a haV).2
          rw [← hac, hvalf]
        have hcargs : c ∈ r.args :=
          (hmemargs c).mpr ⟨by rw [hkdeq]; exact hcmem, hcval⟩
        refine (mem_readonlyOf [resolvedKernelOf r] s).mpr ⟨c, ?_, hcval, hcname, ?_⟩
        · rw [hA2flat]
          exact List.mem_append_left _ hcargs
        · intro d hd
          simp only [List.mem_singleton] at hd
          subst hd
          rw [hwritten s]
          rintro ⟨_, hns⟩
          exact hns hsro
  have hlocs_scope : ∀ t ∈ r.locs, t.scope = Scope.loc := by
    intro t htl
    rw [hlocs] at htl
    by_cases hh : hoist = true
    · rw [if_pos hh] at htl
      rw [hoistStep_locs] at htl
      obtain ⟨l, hl, htll⟩ := List.mem_flatten.mp htl
      obtain ⟨k, _, hkl⟩ := List.mem_map.mp hl
      rw [← hkl] at htll
      have hsl := (List.mem_filter.mp htll).2
      simpa using hsl
    · rw [if_neg hh] at htl
      simp at htl
  have hts2 := ht
  have hts_sorted : List.Pairwise (fun a b : TempVar => a.name < b.name) ts := by
    unfold dedupTemps at hts2
    obtain ⟨ext, hout, hsub⟩ :=
      dedupTemps_go_names (gatherTemps ks extra) _ [] ts hts2
    have hsorted := sortedDedup_pairwise ((gatherTemps ks extra).map (·.name))
    have hsubp := hsorted.sublist hsub
    rw [hout]
    simp only [List.nil_append]
    exact List.pairwise_map.mp hsubp
  have htemps2_sub :
      ((if hoist then hoistStep ks ts else ([], ks, ts)).2.2).Sublist ts := by
    by_cases hh : hoist = true
    · rw [if_pos hh]
      exact hoistStep_temps_sublist ks ts
    · rw [if_neg hh]
  have hconst_sorted :
      List.Pairwise (fun a b : TempVar => a.name < b.name) r.constants := by
    rw [hconst]
    exact (hts_sorted.sublist htemps2_sub).sublist (List.filter_sublist _)
  have hconst_mem_ts : ∀ t ∈ r.constants, t ∈ ts := by
    intro t htc
    rw [hconst] at htc
    exact htemps2_sub.subset ((List.filter_sublist _).subset htc)
  have hts_mem : ∀ t ∈ ts, t ∈ gatherTemps ks extra := by
    intro t htt
    have hts3 := ht
    unfold dedupTemps at hts3
    rcases dedupTemps_go_mem (gatherTemps ks extra) _ [] ts hts3 t htt with h' | h'
    · cases h'
    · exact h'
  have hconst_scope : ∀ t ∈ r.constants,
      (!(t.scope = .priv : Bool) && !(t.scope = .auto : Bool)) = true :=
    fun t htc => gatherTemps_scope ks extra t (hts_mem t (hconst_mem_ts t htc))
  have hconst_ro : ∀ t ∈ r.constants, t.readOnly = true := by
    intro t htc
    rw [hconst] at htc
    have hrt := (List.mem_filter.mp htc).2
    simpa using hrt
  have hKt : (resolvedKernelOf r).temps = r.locs ++ r.constants := rfl
  have hallscope : ∀ t ∈ r.locs ++ r.constants,
      (!(t.scope = .priv : Bool) && !(t.scope = .auto : Bool)) = true := by
    intro t htm
    rcases List.mem_append.mp htm with h' | h'
    · rw [hlocs_scope t h']
      rfl
    · exact hconst_scope t h'
  have hgt₂ : gatherTemps ([resolvedKernelOf r] ++ []) [] =
      r.locs ++ r.constants := by
    show gatherTemps [resolvedKernelOf r] [] = _
    unfold gatherTemps
    simp only [List.map_cons, List.map_nil, List.flatten_cons, List.flatten_nil,
      List.append_nil, List.filterMap_nil]
    rw [hKt]
    exact List.filter_eq_self.mpr hallscope
  have hdt₂ : dedupTemps (r.locs ++ r.constants) =
      .ok (tempsCanon (r.locs ++ r.constants)) := dedupTemps_canon _ hnames
  have hlt : (resolvedKernelOf r).temps.filter (fun t => t.scope = .loc) =
      r.locs := by
    rw [hKt, List.filter_append]
    have h1 : r.locs.filter (fun t => t.scope = .loc) = r.locs :=
      List.filter_eq_self.mpr (fun t htm => by simp [hlocs_scope t htm])
    have h2 : r.constants.filter (fun t => t.scope = .loc) = [] := by
      rw [List.filter_eq_nil_iff]
      intro t htm
      simp only [decide_eq_true_eq]
      exact hscope t htm
    rw [h1, h2, List.append_nil]
  have hTsorted := tempsCanon_sorted (r.locs ++ r.constants)
  have hTmem := tempsCanon_mem (r.locs ++ r.constants) hnames
  have hdisj : ∀ x : TempVar, x ∈ r.constants → x ∉ r.locs := by
    intro x hxc hxl
    have hmap : (r.locs.map (·.name) ++ r.constants.map (·.name)).Nodup := by
      rw [← List.map_append]
      exact hnames
    exact (List.nodup_append.mp hmap).2.2 (List.mem_map_of_mem _ hxl)
      (List.mem_map_of_mem _ hxc)
  have hconsts₂ : ((tempsCanon (r.locs ++ r.constants)).filter
      (fun x => !(x ∈ r.locs : Bool))).filter (fun t => t.readOnly) =
      r.constants := by
    apply strictSorted_key_unique (·.name)
    · exact List.Pairwise.filter _ (List.Pairwise.filter _ hTsorted)
    · exact hconst_sorted
    · intro x
      rw [List.mem_filter, List.mem_filter, hTmem x]
      constructor
      · rintro ⟨⟨hmem, hnl⟩, _⟩
        have hnl' : (!(x ∈ r.locs : Bool)) = true := hnl
        rw [Bool.not_eq_true', decide_eq_false_iff_not] at hnl'
        rcases List.mem_append.mp hmem with h' | h'
        · exact absurd h' hnl'
        · exact h'
      · intro hx
        refine ⟨⟨List.mem_append_right _ hx, ?_⟩, ?_⟩
        · show (!(x ∈ r.locs : Bool)) = true
          rw [Bool.not_eq_true', decide_eq_false_iff_not]
          exact hdisj x hx
        · simp [hconst_ro x hx]
  have hA2 : gatherArgs ([resolvedKernelOf r] ++ []) [] =
      r.args ++ r.valueargs := by
    show gatherArgs [resolvedKernelOf r] [] = _
    unfold gatherArgs
    simp [resolvedKernelOf]
  cases hoist with
  | false =>
    have hlocs0 : r.locs = [] := by
      rw [if_neg Bool.false_ne_true] at hlocs
      simpa using hlocs
    have hTfix : (tempsCanon (r.locs ++ r.constants)).filter
        (fun x => !(x ∈ r.locs : Bool)) = tempsCanon (r.locs ++ r.constants) := by
      apply List.filter_eq_self.mpr
      intro a _
      rw [hlocs0]
      simp
    refine ⟨⟨[resolvedKernelOf r], canons.filter (fun x => !x.isValue), [],
        readonlyOf ([resolvedKernelOf r] ++ []),
        (tempsCanon (r.locs ++ r.constants)).filter (fun t => t.readOnly),
        canons.filter (fun x => x.isValue)⟩, ?_, hargs₂, hlocs0.symm, hro₂, ?_,
        hval₂⟩
    · unfold processArgs
      dsimp only
      rw [hA2, hrun]
      dsimp only
      rw [hgt₂, hdt₂]
      rfl
    · rw [hTfix] at hconsts₂
      exact hconsts₂
  | true =>
    rw [if_pos rfl] at hlocs
    by_cases hl0 : r.locs = []
    · have hTfix : (tempsCanon (r.locs ++ r.constants)).filter
          (fun x => !(x ∈ r.locs : Bool)) =
          tempsCanon (r.locs ++ r.constants) := by
        apply List.filter_eq_self.mpr
        intro a _
        rw [hl0]
        simp
      have hhs : hoistStep ([resolvedKernelOf r] ++ [])
          (tempsCanon (r.locs ++ r.constants)) =
          ([], [resolvedKernelOf r], tempsCanon (r.locs ++ r.constants)) := by
        show hoistStep [resolvedKernelOf r] _ = _
        simp only [hoistStep]
        rw [hlt, hl0]
        rfl
      refine ⟨⟨[resolvedKernelOf r], canons.filter (fun x => !x.isValue), [],
          readonlyOf ([resolvedKernelOf r] ++ []),
          (tempsCanon (r.locs ++ r.constants)).filter (fun t => t.readOnly),
          canons.filter (fun x => x.isValue)⟩, ?_, hargs₂, hl0.symm, hro₂, ?_,
          hval₂⟩
      · unfold processArgs
        dsimp only
        rw [hA2, hrun]
        dsimp only
        rw [hgt₂, hdt₂]
        dsimp only
        rw [hhs]
        rfl
      · rw [hTfix] at hconsts₂
        exact hconsts₂
    · have hne : r.locs.isEmpty = false := by
        cases he : r.locs.isEmpty
        · rfl
        · exact absurd (List.isEmpty_iff.mp he) hl0
      have hhs : hoistStep ([resolvedKernelOf r] ++ [])
          (tempsCanon (r.locs ++ r.constants)) =
          (r.locs ++ [], migrateLocals (resolvedKernelOf r) r.locs :: [],
            (tempsCanon (r.locs ++ r.constants)).filter
              (fun x => !(x ∈ r.locs : Bool))) := by
        show hoistStep [resolvedKernelOf r] _ = _
        simp only [hoistStep]
        rw [hlt, hne]
        rfl
      refine ⟨⟨[migrateLocals (resolvedKernelOf r) r.locs],
          canons.filter (fun x => !x.isValue), r.locs ++ [],
          readonlyOf ([resolvedKernelOf r] ++ []),
          ((tempsCanon (r.locs ++ r.constants)).filter
            (fun x => !(x ∈ r.locs : Bool))).filter (fun t => t.readOnly),
          canons.filter (fun x => x.isValue)⟩, ?_, hargs₂, List.append_nil _,
          hro₂, hconsts₂, hval₂⟩
      unfold processArgs
      dsimp only
      rw [hA2, hrun]
      dsimp only
      rw [hgt₂, hdt₂]
      dsimp only
      rw [hhs]
      rfl

/-- C9 witness: rerunning `_process_args` on the kernel assembled from a
concrete resolved result reproduces the same partition. -/
theorem c9_witness :
    ∃ r₂, processArgs true [resolvedKernelOf rFix] [] [] = .ok r₂
      ∧ r₂.args = rFix.args ∧ r₂.locs = rFix.locs
      ∧ r₂.readonly = rFix.readonly ∧ r₂.constants = rFix.constants
      ∧ r₂.valueargs = rFix.valueargs :=
  c9_process_args_idempotent true [kOwn] [] [] rFix (by rfl) (by decide)
    (by decide)

end PyJacGen
